import Mathlib

/-!
Verification of the camera-path synthesis engine of the `globe` repository.

The development shallowly embeds the algorithmic core of
`scripts/compute_camera_path.py` and the crossfade scheduler duplicated in
`scripts/render_globe.py`, `scripts/render_flat.py` and
`scripts/test_crossfade.py`.  Python floats are modelled as rationals,
Python ints as `Int`/`Nat`, Python lists as `List`, and Python dicts as
insertion-ordered association lists.
-/

namespace Globe

/-- A maximal run of consecutive animation frames sharing one
`geo_frame_idx`: the tuple `(prev_geo, run_start, i, i - run_start)`
appended to `runs` in the source. -/
structure Run where
  geo : Nat
  start : Nat
  stop : Nat
  len : Nat
deriving DecidableEq, Repr, Inhabited
namespace RenderGlobe

/-- The run-detection loop of `compute_crossfade_schedule`
(`render_globe.py`), as a recursion over the remaining frame list.  State:
remaining frames, `prev_geo`, `run_start`, the enumeration index `i`, the
total frame count, and the accumulated `runs` list. -/
def runsAux : List Nat → Nat → Nat → Nat → Nat → List Run → List Run
  | [], prev, run_start, _i, total, acc =>
      acc ++ [⟨prev, run_start, total, total - run_start⟩]
  | g :: gs, prev, run_start, i, total, acc =>
      if g ≠ prev then
        runsAux gs g i (i + 1) total (acc ++ [⟨prev, run_start, i, i - run_start⟩])
      else
        runsAux gs prev run_start (i + 1) total acc

/-- The `runs` list built by `compute_crossfade_schedule` from the
`geo_frame_idx` sequence of `path_frames`. -/
def computeRuns (path_frames : List Nat) : List Run :=
  runsAux path_frames (path_frames.headD 0) 0 0 path_frames.length []

/-- Python dict assignment `m[k] = v`: overwrite in place if the key is
present, otherwise append (insertion order preserved). -/
def dictInsert (m : List (Int × (Nat × Nat × ℚ))) (k : Int) (v : Nat × Nat × ℚ) :
    List (Int × (Nat × Nat × ℚ)) :=
  if (m.map Prod.fst).contains k then
    m.map (fun p => if p.1 = k then (k, v) else p)
  else m ++ [(k, v)]

/-- `compute_crossfade_schedule` from `render_globe.py`: maps animation
frame indices to `(geo_idx_a, geo_idx_b, alpha)`. -/
def compute_crossfade_schedule (path_frames : List Nat) (crossfade_half : Nat) :
    List (Int × (Nat × Nat × ℚ)) :=
  let runs := computeRuns path_frames
  (List.range (runs.length - 1)).foldl (fun cm ri =>
    let out_run := runs.getD ri default
    let in_run := runs.getD (ri + 1) default
    let half := min (min (out_run.len / 2) (in_run.len / 2)) crossfade_half
    if half < 1 then cm
    else
      let window := 2 * half
      let transition : Int := in_run.start
      (List.range window).foldl (fun cm (k : ℕ) =>
        dictInsert cm (transition - half + k)
          (out_run.geo, in_run.geo, ((k : ℚ) + 1) / ((window : ℚ) + 1))) cm) []
end RenderGlobe
namespace RenderFlat

/-- Run-detection loop of `compute_crossfade_schedule` (`render_flat.py`). -/
def runsAux : List Nat → Nat → Nat → Nat → Nat → List Run → List Run
  | [], prev, run_start, _i, total, acc =>
      acc ++ [⟨prev, run_start, total, total - run_start⟩]
  | g :: gs, prev, run_start, i, total, acc =>
      if g ≠ prev then
        runsAux gs g i (i + 1) total (acc ++ [⟨prev, run_start, i, i - run_start⟩])
      else
        runsAux gs prev run_start (i + 1) total acc

/-- The `runs` list built by `compute_crossfade_schedule` (`render_flat.py`). -/
def computeRuns (path_frames : List Nat) : List Run :=
  runsAux path_frames (path_frames.headD 0) 0 0 path_frames.length []

/-- Python dict assignment, as in `render_flat.py`. -/
def dictInsert (m : List (Int × (Nat × Nat × ℚ))) (k : Int) (v : Nat × Nat × ℚ) :
    List (Int × (Nat × Nat × ℚ)) :=
  if (m.map Prod.fst).contains k then
    m.map (fun p => if p.1 = k then (k, v) else p)
  else m ++ [(k, v)]

/-- `compute_crossfade_schedule` from `render_flat.py`. -/
def compute_crossfade_schedule (path_frames : List Nat) (crossfade_half : Nat) :
    List (Int × (Nat × Nat × ℚ)) :=
  let runs := computeRuns path_frames
  (List.range (runs.length - 1)).foldl (fun cm ri =>
    let out_run := runs.getD ri default
    let in_run := runs.getD (ri + 1) default
    let half := min (min (out_run.len / 2) (in_run.len / 2)) crossfade_half
    if half < 1 then cm
    else
      let window := 2 * half
      let transition : Int := in_run.start
      (List.range window).foldl (fun cm (k : ℕ) =>
        dictInsert cm (transition - half + k)
          (out_run.geo, in_run.geo, ((k : ℚ) + 1) / ((window : ℚ) + 1))) cm) []
end RenderFlat
namespace TestCrossfade

/-- Run-detection loop of `compute_crossfade_schedule` (`test_crossfade.py`). -/
def runsAux : List Nat → Nat → Nat → Nat → Nat → List Run → List Run
  | [], prev, run_start, _i, total, acc =>
      acc ++ [⟨prev, run_start, total, total - run_start⟩]
  | g :: gs, prev, run_start, i, total, acc =>
      if g ≠ prev then
        runsAux gs g i (i + 1) total (acc ++ [⟨prev, run_start, i, i - run_start⟩])
      else
        runsAux gs prev run_start (i + 1) total acc

/-- The `runs` list built by `compute_crossfade_schedule` (`test_crossfade.py`). -/
def computeRuns (path_frames : List Nat) : List Run :=
  runsAux path_frames (path_frames.headD 0) 0 0 path_frames.length []

/-- Python dict assignment, as in `test_crossfade.py`. -/
def dictInsert (m : List (Int × (Nat × Nat × ℚ))) (k : Int) (v : Nat × Nat × ℚ) :
    List (Int × (Nat × Nat × ℚ)) :=
  if (m.map Prod.fst).contains k then
    m.map (fun p => if p.1 = k then (k, v) else p)
  else m ++ [(k, v)]

/-- `compute_crossfade_schedule` from `test_crossfade.py`. -/
def compute_crossfade_schedule (path_frames : List Nat) (crossfade_half : Nat) :
    List (Int × (Nat × Nat × ℚ)) :=
  let runs := computeRuns path_frames
  (List.range (runs.length - 1)).foldl (fun cm ri =>
    let out_run := runs.getD ri default
    let in_run := runs.getD (ri + 1) default
    let half := min (min (out_run.len / 2) (in_run.len / 2)) crossfade_half
    if half < 1 then cm
    else
      let window := 2 * half
      let transition : Int := in_run.start
      (List.range window).foldl (fun cm (k : ℕ) =>
        dictInsert cm (transition - half + k)
          (out_run.geo, in_run.geo, ((k : ℚ) + 1) / ((window : ℚ) + 1))) cm) []
end TestCrossfade
namespace RenderGlobe

/-- First-match lookup in an insertion-ordered association map: the entry a
Python dict stores for key `k`. -/
def mapLookup : List (Int × (Nat × Nat × ℚ)) → Int → Option (Nat × Nat × ℚ)
  | [], _ => none
  | (k', v) :: rest, k => if k' = k then some v else mapLookup rest k

/-- Accumulator-free form of `runsAux` used for reasoning. -/
def runsFrom : List Nat → Nat → Nat → Nat → Nat → List Run
  | [], prev, run_start, _i, total => [⟨prev, run_start, total, total - run_start⟩]
  | g :: gs, prev, run_start, i, total =>
      if g ≠ prev then
        ⟨prev, run_start, i, i - run_start⟩ :: runsFrom gs g i (i + 1) total
      else
        runsFrom gs prev run_start (i + 1) total

/-- The individual window writes generated at run boundary `ri`. -/
def boundaryWrites (runs : List Run) (crossfade_half : Nat) (ri : Nat) :
    List (Int × (Nat × Nat × ℚ)) :=
  let out_run := runs.getD ri default
  let in_run := runs.getD (ri + 1) default
  let half := min (min (out_run.len / 2) (in_run.len / 2)) crossfade_half
  if half < 1 then []
  else
    (List.range (2 * half)).map (fun (k : ℕ) =>
      ((in_run.start : Int) - half + k,
        (out_run.geo, in_run.geo, ((k : ℚ) + 1) / (((2 * half : ℕ) : ℚ) + 1))))

/-- All window writes of the schedule, boundary after boundary. -/
def scheduleWrites (path_frames : List Nat) (crossfade_half : Nat) :
    List (Int × (Nat × Nat × ℚ)) :=
  (List.range ((computeRuns path_frames).length - 1)).flatMap
    (boundaryWrites (computeRuns path_frames) crossfade_half)

/-- `runs` is a chain of consecutive nonempty runs covering positions
`s` through `total`. -/
def RunsChain : List Run → Nat → Nat → Prop
  | [], s, total => s = total
  | r :: rs, s, total => r.start = s ∧ r.stop = s + r.len ∧ 1 ≤ r.len ∧ RunsChain rs r.stop total

/-- `runs` is the partition of the frame sequence `seq` into maximal runs
of consecutive frames sharing the same `geo_frame_idx`: a chain of
nonempty consecutive runs covering all of `seq`, each run constant with
its `geo` value, adjacent runs carrying distinct `geo` values. -/
def IsRunPartition (seq : List Nat) (runs : List Run) : Prop :=
  RunsChain runs 0 seq.length ∧
  (∀ r ∈ runs, ∀ idx, r.start ≤ idx → idx < r.stop → seq.getD idx 0 = r.geo) ∧
  List.Chain' (fun a b => a.geo ≠ b.geo) runs

/-- One iteration of the boundary loop of `compute_crossfade_schedule`. -/
def scheduleStep (runs : List Run) (crossfade_half : Nat)
    (cm : List (Int × (Nat × Nat × ℚ))) (ri : Nat) : List (Int × (Nat × Nat × ℚ)) :=
  let out_run := runs.getD ri default
  let in_run := runs.getD (ri + 1) default
  let half := min (min (out_run.len / 2) (in_run.len / 2)) crossfade_half
  if half < 1 then cm
  else
    let window := 2 * half
    let transition : Int := in_run.start
    (List.range window).foldl (fun cm (k : ℕ) =>
      dictInsert cm (transition - half + k)
        (out_run.geo, in_run.geo, ((k : ℚ) + 1) / ((window : ℚ) + 1))) cm

/-- `half` computed at run boundary `ri`. -/
def halfAt (runs : List Run) (crossfade_half ri : Nat) : Nat :=
  min (min ((runs.getD ri default).len / 2) ((runs.getD (ri + 1) default).len / 2)) crossfade_half

/-- The crossfade assignment prescribed by the specification for animation
frame `idx`: the first run boundary whose blend window (of `2 * half`
frames straddling the start of the incoming run) contains `idx` assigns
`(outgoing geo, incoming geo, (k+1)/(2*half+1))`, `k` being the position of
`idx` inside the window. -/
def crossfadeAssignSpec (seq : List Nat) (hw : Nat) (idx : Int) : Option (Nat × Nat × ℚ) :=
  (List.range ((computeRuns seq).length - 1)).findSome? (fun j =>
    if 1 ≤ halfAt (computeRuns seq) hw j ∧
        (((computeRuns seq).getD (j + 1) default).start : Int) - halfAt (computeRuns seq) hw j ≤ idx ∧
        idx < (((computeRuns seq).getD (j + 1) default).start : Int) + halfAt (computeRuns seq) hw j then
      some (((computeRuns seq).getD j default).geo, ((computeRuns seq).getD (j + 1) default).geo,
        ((idx - ((((computeRuns seq).getD (j + 1) default).start : Int) -
            halfAt (computeRuns seq) hw j) + 1 : Int) : ℚ) /
          (((2 * halfAt (computeRuns seq) hw j : ℕ) : ℚ) + 1))
    else none)

/-- Animation-frame index `idx` lies inside the crossfade window scheduled
at run boundary `j` (between run `j` and run `j + 1`). -/
def InWindow (runs : List Run) (hw j : Nat) (idx : Int) : Prop :=
  1 ≤ halfAt runs hw j ∧
  ((runs.getD (j + 1) default).start : Int) - halfAt runs hw j ≤ idx ∧
  idx < ((runs.getD (j + 1) default).start : Int) + halfAt runs hw j

/-- The blend factor the specification prescribes for frame `idx` in the
window of boundary `j`: `(k+1) / (2*half+1)` at window position `k`. -/
def alphaAt (runs : List Run) (hw j : Nat) (idx : Int) : ℚ :=
  ((idx - (((runs.getD (j + 1) default).start : Int) - halfAt runs hw j) + 1 : Int) : ℚ) /
    (((2 * halfAt runs hw j : ℕ) : ℚ) + 1)
end RenderGlobe
namespace CameraPath

/-- Era blending (`compute_camera_path.py` line 327): per-timestep blend of
the computed centroid longitude with the interpolated era override,
elementwise, `raw * (1 - w) + override * w`. -/
def blended_lons (raw_lons override_lons override_weights : Nat → ℚ) (i : Nat) : ℚ :=
  raw_lons i * (1 - override_weights i) + override_lons i * override_weights i

/-- Era blending (`compute_camera_path.py` line 328), latitude channel. -/
def blended_lats (raw_lats override_lats override_weights : Nat → ℚ) (i : Nat) : ℚ :=
  raw_lats i * (1 - override_weights i) + override_lats i * override_weights i

/-- The empty-reconstruction branch of the centroid loop
(`compute_camera_path.py` lines 100–108): a timestep with no polygons
appends the previous values (forward fill), or the `0.0` defaults when the
history lists are still empty. -/
def emptyStepAppend (raw_lons raw_lats land_areas : List ℚ) : List ℚ × List ℚ × List ℚ :=
  if raw_lons ≠ [] then
    (raw_lons ++ [raw_lons.getLastD 0], raw_lats ++ [raw_lats.getLastD 0],
      land_areas ++ [land_areas.getLastD 0])
  else
    (raw_lons ++ [0], raw_lats ++ [0], land_areas ++ [0])

/-- The empty-reconstruction branch of the dispersal loop
(`compute_camera_path.py` line 232): `dispersal[i] = dispersal[max(0, i-1)]`. -/
def dispersalFill (dispersal : List ℚ) (i : Nat) : List ℚ :=
  dispersal.set i (dispersal.getD (i - 1) 0)

/-- Linear interpolation through the knot segment `(x0, y0)`–`(x1, y1)`. -/
def lerp (x0 y0 x1 y1 x : ℚ) : ℚ := y0 + (x - x0) * (y1 - y0) / (x1 - x0)

/-- Model of the external interpolator
`scipy.interpolate.interp1d(kind='linear', fill_value='extrapolate')`
called with ascending knots at `compute_camera_path.py` lines 315–320:
piecewise linear between knots, and beyond either end of the knot range the
nearest end segment is continued linearly (scipy's documented
`extrapolate` behavior). -/
def interp1d_linear : List (ℚ × ℚ) → ℚ → ℚ
  | [], _ => 0
  | [(_, y0)], _ => y0
  | (x0, y0) :: (x1, y1) :: rest, x =>
      if x ≤ x1 ∨ rest = [] then lerp x0 y0 x1 y1 x
      else interp1d_linear ((x1, y1) :: rest) x

/-- `ERA_OVERRIDES` from `compute_camera_path.py`:
`(time_ma, target_lon, target_lat, label, weight)`. -/
def ERA_OVERRIDES : List (ℚ × Option ℚ × Option ℚ × String × ℚ) :=
  [(1000, none, none, "Rodinia assembling", 0),
   (900, none, none, "Rodinia assembled", 0),
   (750, none, none, "Rodinia breaking up", 0),
   (550, some 100, some (-45), "Gondwana assembling", 1/2),
   (480, some 120, some (-50), "Gondwana assembled", 1/2),
   (380, some 5, some (-15), "Laurussia forming", 2/5),
   (350, some 0, some (-10), "Pangaea assembling", 1/2),
   (300, some 0, some 10, "Pangaea coalescing", 3/5),
   (250, some 0, some 10, "Pangaea assembled", 7/10),
   (200, some 20, some 15, "Pangaea breaking up", 1/2),
   (150, some 20, some 10, "Atlantic Ocean opening", 3/10),
   (100, some 10, some 10, "India racing north", 1/5),
   (66, some 0, some 10, "K-Pg extinction", 1/5),
   (50, some 0, some 20, "Modern world forming", 1/10),
   (0, some 15, some 25, "Present day", 2/5)]

/-- `era_times` from the source: the authored keyframe times. -/
def era_times : List ℚ := ERA_OVERRIDES.map (fun e => e.1)

/-- `era_weights` from the source: the authored override weights. -/
def era_weights : List ℚ := ERA_OVERRIDES.map (fun e => e.2.2.2.2)

/-- `weight_interp` from the source: the era weights interpolated over time
(knots reversed into ascending order, as in `era_times[::-1]`). -/
def weight_interp (t : ℚ) : ℚ :=
  interp1d_linear (era_times.reverse.zip era_weights.reverse) t

/-- `times = np.arange(TIME_START, TIME_END - 1, -TIME_STEP)`:
1000, 999, …, 0. -/
def times : List ℚ := (List.range 1001).map (fun (i : ℕ) => (1000 : ℚ) - i)

/-- One output record of the camera path (an `output_frames` entry). -/
structure Frame where
  anim_frame : Nat
  time_ma : ℚ
  geo_frame_idx : Nat
  camera_lon : ℚ
  camera_lat : ℚ
  dispersal : ℚ
  era_label : String

/-- Python `round` with no digits argument: round half to even. -/
def pythonRound (q : ℚ) : ℤ :=
  if q - Int.floor q < 1/2 then Int.floor q
  else if q - Int.floor q > 1/2 then Int.floor q + 1
  else if Int.floor q % 2 = 0 then Int.floor q else Int.floor q + 1

/-- `frame_duration = MIN_SPEED + (MAX_SPEED - MIN_SPEED) * (1.0 -
smooth_dispersal)` (`compute_camera_path.py` line 369), per timestep. -/
def frame_duration (min_speed max_speed : ℚ) (smooth_dispersal : Nat → ℚ) (i : Nat) : ℚ :=
  min_speed + (max_speed - min_speed) * (1 - smooth_dispersal i)

/-- `MIN_SPEED` from the source. -/
def MIN_SPEED : ℚ := 1

/-- `MAX_SPEED` from the source. -/
def MAX_SPEED : ℚ := 3

/-- `n_frames = max(1, int(round(frame_duration[i])))` (line 408). -/
def n_frames_of (fd : ℚ) : Nat := (max 1 (pythonRound fd)).toNat

/-- Inputs of the frame-expansion loop (`compute_camera_path.py` lines
398–443).  The per-timestep arrays produced upstream (times, smoothed
camera positions, smoothed dispersal, resolved era labels) are taken as
functions of the timestep index; `hold_extra` is the configured
`hold_frames` table, 0 where no hold applies. -/
structure ExpandInput where
  total_steps : Nat
  min_speed : ℚ
  max_speed : ℚ
  times : Nat → ℚ
  smooth_lons : Nat → ℚ
  smooth_lats : Nat → ℚ
  smooth_dispersal : Nat → ℚ
  era_label : Nat → String
  hold_extra : Nat → Nat

/-- The regular frames emitted for timestep `i` (the inner
`for sub in range(n_frames)` loop), starting at animation index
`anim_start`. -/
def regular_frames (inp : ExpandInput) (i anim_start : Nat) : List Frame :=
  let n_frames := n_frames_of (frame_duration inp.min_speed inp.max_speed inp.smooth_dispersal i)
  (List.range n_frames).map (fun (sub : ℕ) =>
    let t : ℚ := if n_frames > 1 then (sub : ℚ) / n_frames else 0
    let interp_lon := if i < inp.total_steps - 1 then
        inp.smooth_lons i * (1 - t) + inp.smooth_lons (i + 1) * t
      else inp.smooth_lons i
    let interp_lat := if i < inp.total_steps - 1 then
        inp.smooth_lats i * (1 - t) + inp.smooth_lats (i + 1) * t
      else inp.smooth_lats i
    { anim_frame := anim_start + sub, time_ma := inp.times i, geo_frame_idx := i,
      camera_lon := interp_lon, camera_lat := interp_lat,
      dispersal := inp.smooth_dispersal i, era_label := inp.era_label i })

/-- The hold frames appended for timestep `i` (the `if i in hold_frames`
block), starting at animation index `anim_start`. -/
def hold_frames_at (inp : ExpandInput) (i anim_start : Nat) : List Frame :=
  (List.range (inp.hold_extra i)).map (fun (h : ℕ) =>
    { anim_frame := anim_start + h, time_ma := inp.times i, geo_frame_idx := i,
      camera_lon := inp.smooth_lons i, camera_lat := inp.smooth_lats i,
      dispersal := inp.smooth_dispersal i, era_label := inp.era_label i })

/-- One iteration of the frame-expansion loop: state is the accumulated
`output_frames` list and the `anim_frame` counter. -/
def expandStep (inp : ExpandInput) (st : List Frame × Nat) (i : Nat) : List Frame × Nat :=
  let regs := regular_frames inp i st.2
  let holds := hold_frames_at inp i (st.2 + regs.length)
  (st.1 ++ regs ++ holds, st.2 + regs.length + holds.length)

/-- `output_frames`: the full frame-expansion loop over all timesteps. -/
def output_frames (inp : ExpandInput) : List Frame :=
  ((List.range inp.total_steps).foldl (expandStep inp) ([], 0)).1

/-- The number of regular (non-hold) frames for timestep `i`. -/
def regularCount (inp : ExpandInput) (i : Nat) : Nat :=
  n_frames_of (frame_duration inp.min_speed inp.max_speed inp.smooth_dispersal i)

/-- `find_root` (`compute_camera_path.py` lines 75–80): root lookup with
path compression, mutating the parent list in place; the `while` loop is
modelled with fuel — the callers pass the node count, which always
suffices for a well-formed forest. -/
def find_root : Nat → List Nat → Nat → List Nat × Nat
  | 0, parent, i => (parent, i)
  | fuel + 1, parent, i =>
      if parent.getD i 0 ≠ i then
        find_root fuel (parent.set i (parent.getD (parent.getD i 0) 0))
          (parent.getD (parent.getD i 0) 0)
      else (parent, i)

/-- `union` (`compute_camera_path.py` lines 82–91): merge the sets of `a`
and `b` by rank, after finding both roots (each `find_root` call mutating
the shared parent list). -/
def union (fuel : Nat) (parent rank_arr : List Nat) (a b : Nat) : List Nat × List Nat :=
  let pa := find_root fuel parent a
  let pb := find_root fuel pa.1 b
  let ra := pa.2
  let rb := pb.2
  if ra = rb then (pb.1, rank_arr)
  else
    let rab := if rank_arr.getD ra 0 < rank_arr.getD rb 0 then (rb, ra) else (ra, rb)
    let parent3 := pb.1.set rab.2 rab.1
    let rank2 := if rank_arr.getD rab.1 0 = rank_arr.getD rab.2 0 then
        rank_arr.set rab.1 (rank_arr.getD rab.1 0 + 1)
      else rank_arr
    (parent3, rank2)

/-- The parent function read off a parent list. -/
def pfun (parent : List Nat) (i : Nat) : Nat := parent.getD i 0

/-- Fuel-bounded pure root lookup (no compression), for specification. -/
def rootAux : Nat → List Nat → Nat → Nat
  | 0, _, i => i
  | fuel + 1, parent, i =>
      if pfun parent i = i then i else rootAux fuel parent (pfun parent i)

/-- The root of node `i` in the union-find forest `parent`. -/
def root (parent : List Nat) (i : Nat) : Nat := rootAux parent.length parent i

/-- The parent list is a well-formed union-find forest: parents stay in
range and every node eventually reaches a fixpoint (its root). -/
def UFWF (parent : List Nat) : Prop :=
  (∀ i, i < parent.length → pfun parent i < parent.length) ∧
  (∀ i, i < parent.length → ∃ k, pfun parent ((pfun parent)^[k] i) = (pfun parent)^[k] i)

/-- `pairwise_dist` iteration order: the keys `(a, b)` with `a < b < n`,
outer index ascending, inner index ascending. -/
def pairsList (n : Nat) : List (Nat × Nat) :=
  (List.range n).flatMap (fun a => ((List.range n).drop (a + 1)).map (fun b => (a, b)))

/-- Python `defaultdict(list)` append `clusters[k].append(v)`. -/
def dictAppendNat (m : List (Nat × List Nat)) (k : Nat) (v : Nat) : List (Nat × List Nat) :=
  if (m.map Prod.fst).contains k then
    m.map (fun p => if p.1 = k then (p.1, p.2 ++ [v]) else p)
  else m ++ [(k, [v])]

/-- The cluster-collection loop (`compute_camera_path.py` lines 173–176):
group every index by its root, threading the parent list through the
compressing `find_root` calls. -/
def buildClusters (fuel n : Nat) (parent : List Nat) : List Nat × List (Nat × List Nat) :=
  (List.range n).foldl (fun st idx =>
    (( find_root fuel st.1 idx).1, dictAppendNat st.2 (find_root fuel st.1 idx).2 idx))
    (parent, [])

/-- Summed area of a cluster (`sum(poly_data[j]['area'] for j in idxs)`). -/
def clusterArea (areas : List ℚ) (idxs : List Nat) : ℚ :=
  (idxs.map (fun j => areas.getD j 0)).sum

/-- Python `max(clusters.values(), key=cluster area)`: first maximum wins. -/
def maxByArea (areas : List ℚ) : List (List Nat) → List Nat
  | [] => []
  | c :: cs =>
      cs.foldl (fun best x =>
        if clusterArea areas x > clusterArea areas best then x else best) c

/-- The per-threshold clustering (`compute_camera_path.py` lines 166–177):
fresh union-find over `n = len(poly_data)` nodes, union every
precomputed pair whose distance is below the threshold (in dict order),
then collect clusters; returns the cluster member lists in
first-occurrence order (`clusters.values()`). -/
def clustersAt (areas : List ℚ) (d : Nat → Nat → ℚ) (t : ℚ) : List (List Nat) :=
  let n := areas.length
  let st := (pairsList n).foldl (fun (st : List Nat × List Nat) ab =>
      if d ab.1 ab.2 < t then union n st.1 st.2 ab.1 ab.2 else st)
    (List.range n, List.replicate n 0)
  ((buildClusters n n st.1).2).map Prod.snd

/-- `total_area`: the summed (clamped) polygon areas. -/
def total_area (areas : List ℚ) : ℚ := areas.sum

/-- `CLUSTER_THRESHOLDS` from the source. -/
def CLUSTER_THRESHOLDS : List ℚ := [12, 18, 25]

/-- `MIN_CLUSTER_COVERAGE` from the source. -/
def MIN_CLUSTER_COVERAGE : ℚ := 1/2

/-- The per-threshold candidate: the largest-area cluster
(`max(clusters.values(), key=...)`). -/
def dominantAt (areas : List ℚ) (d : Nat → Nat → ℚ) (t : ℚ) : List Nat :=
  maxByArea areas (clustersAt areas d t)

/-- The per-threshold coverage
(`candidate_area / total_area if total_area > 0 else 0`). -/
def coverageAt (areas : List ℚ) (d : Nat → Nat → ℚ) (t : ℚ) : ℚ :=
  if total_area areas > 0 then clusterArea areas (dominantAt areas d t) / total_area areas
  else 0

/-- The threshold-escalation loop (`for threshold in CLUSTER_THRESHOLDS`)
with its early `break`, carrying `(best_cluster, used_threshold)`. -/
def thresholdLoop (areas : List ℚ) (d : Nat → Nat → ℚ) :
    List ℚ → List Nat × ℚ → List Nat × ℚ
  | [], st => st
  | t :: ts, _ =>
      if coverageAt areas d t ≥ MIN_CLUSTER_COVERAGE then (dominantAt areas d t, t)
      else thresholdLoop areas d ts (dominantAt areas d t, t)

/-- The dominant-cluster selection: escalate through the configured
thresholds, stopping at the first with sufficient coverage
(initial state: `best_cluster = None ≈ []`,
`used_threshold = CLUSTER_THRESHOLDS[-1]`). -/
def cluster_dominant (areas : List ℚ) (d : Nat → Nat → ℚ) : List Nat × ℚ :=
  thresholdLoop areas d CLUSTER_THRESHOLDS ([], CLUSTER_THRESHOLDS.getLastD 0)

/-- Indices `x` and `y` belong to the same proximity cluster at threshold
`t`: the equivalence closure of the edges the code unions — the
precomputed pairs whose distance lies below `t`. -/
def SameCluster (n : Nat) (d : Nat → Nat → ℚ) (t : ℚ) (x y : Nat) : Prop :=
  Relation.EqvGen (fun u v =>
    (u = v ∧ u < n ∧ v < n) ∨ (u, v) ∈ (pairsList n).filter (fun ab => d ab.1 ab.2 < t)) x y

/-- The single-edge relation the clustering loop unions at threshold `t`:
equal in-range indices, or a precomputed pair with distance below `t`. -/
def EdgeRel (n : Nat) (d : Nat → Nat → ℚ) (t : ℚ) (edges : List (Nat × Nat)) (u v : Nat) :
    Prop :=
  (u = v ∧ u < n ∧ v < n) ∨ (u, v) ∈ edges.filter (fun ab => d ab.1 ab.2 < t)

/-- The union loop over the candidate pairs (`compute_camera_path.py`
lines 169–172), starting from the fresh union-find state. -/
def unionFold (n : Nat) (d : Nat → Nat → ℚ) (t : ℚ) (edges : List (Nat × Nat)) :
    List Nat × List Nat :=
  edges.foldl (fun (st : List Nat × List Nat) ab =>
      if d ab.1 ab.2 < t then union n st.1 st.2 ab.1 ab.2 else st)
    (List.range n, List.replicate n 0)

/-- The cluster-collection fold (`compute_camera_path.py` lines 173–176)
restricted to the first `m` indices. -/
def clusterFold (n : Nat) (pstar : List Nat) (m : Nat) : List Nat × List (Nat × List Nat) :=
  (List.range m).foldl (fun st idx =>
    (( find_root n st.1 idx).1, dictAppendNat st.2 (find_root n st.1 idx).2 idx))
    (pstar, [])
end CameraPath

namespace RenderGlobe

theorem runsAux_eq_append (rest : List Nat) :
    ∀ (prev run_start i total : Nat) (acc : List Run),
      runsAux rest prev run_start i total acc =
        acc ++ runsFrom rest prev run_start i total := by
  induction rest with
  | nil => intro prev run_start i total acc; rfl
  | cons g gs ih =>
      intro prev run_start i total acc
      simp only [runsAux, runsFrom]
      by_cases h : g ≠ prev
      · simp only [if_pos h, ih, List.append_assoc, List.singleton_append]
      · simp only [if_neg h, ih]

theorem runsFrom_spec (rest : List Nat) :
    ∀ (seq : List Nat) (prev run_start i : Nat),
      run_start < i → i + rest.length = seq.length → rest = seq.drop i →
      (∀ idx, run_start ≤ idx → idx < i → seq.getD idx 0 = prev) →
      RunsChain (runsFrom rest prev run_start i seq.length) run_start seq.length ∧
      (∀ r ∈ runsFrom rest prev run_start i seq.length,
        ∀ idx, r.start ≤ idx → idx < r.stop → seq.getD idx 0 = r.geo) ∧
      List.Chain' (fun a b => a.geo ≠ b.geo) (runsFrom rest prev run_start i seq.length) ∧
      (∃ r0 tl, runsFrom rest prev run_start i seq.length = r0 :: tl ∧ r0.geo = prev) := by
  induction rest with
  | nil =>
      intro seq prev run_start i hlt hlen _hdrop hpend
      simp only [List.length_nil, Nat.add_zero] at hlen
      subst hlen
      refine ⟨?_, ?_, ?_, ?_⟩
      · refine ⟨rfl, ?_, ?_, ?_⟩
        · show seq.length = run_start + (seq.length - run_start); omega
        · show 1 ≤ seq.length - run_start; omega
        · rfl
      · intro r hr idx h1 h2
        simp only [runsFrom, List.mem_singleton] at hr
        subst hr
        exact hpend idx h1 h2
      · simp [runsFrom]
      · exact ⟨_, _, rfl, rfl⟩
  | cons g gs ih =>
      intro seq prev run_start i hlt hlen hdrop hpend
      have hgi : seq.getD i 0 = g := by
        have h1 : seq.drop i = g :: gs := hdrop.symm
        have h2 : seq[i]? = some g := by
          have := List.getElem?_drop seq i 0
          rw [h1] at this
          simpa using this.symm
        simp [List.getD_eq_getElem?_getD, h2]
      have hdrop' : gs = seq.drop (i + 1) := by
        have h1 : seq.drop i = g :: gs := hdrop.symm
        have h2 : (seq.drop i).tail = gs := by rw [h1, List.tail_cons]
        rw [← h2, List.tail_drop]
      have hlen' : (i + 1) + gs.length = seq.length := by
        simp only [List.length_cons] at hlen; omega
      by_cases hgp : g ≠ prev
      · simp only [runsFrom, if_pos hgp]
        obtain ⟨hchain, hcover, hadj, r0, tl, heq, hgeo⟩ :=
          ih seq g i (i + 1) (Nat.lt_succ_self i) hlen' hdrop'
            (by intro idx h1 h2; have : idx = i := by omega
                subst this; exact hgi)
        refine ⟨⟨rfl, ?_, ?_, hchain⟩, ?_, ?_, ?_⟩
        · show i = run_start + (i - run_start); omega
        · show 1 ≤ i - run_start; omega
        · intro r hr idx h1 h2
          rcases List.mem_cons.mp hr with hr | hr
          · subst hr; exact hpend idx h1 h2
          · exact hcover r hr idx h1 h2
        · rw [heq]
          refine List.chain'_cons.mpr ⟨?_, heq ▸ hadj⟩
          show prev ≠ r0.geo
          rw [hgeo]
          exact fun h => hgp h.symm
        · exact ⟨_, _, rfl, rfl⟩
      · simp only [runsFrom, if_neg hgp]
        push_neg at hgp
        exact ih seq prev run_start (i + 1) (by omega) hlen' hdrop'
          (by intro idx h1 h2
              rcases Nat.lt_or_ge idx i with h | h
              · exact hpend idx h1 h
              · have : idx = i := by omega
                subst this; rw [hgi, hgp])

theorem chain_le (runs : List Run) : ∀ (s total : Nat), RunsChain runs s total → s ≤ total := by
  induction runs with
  | nil => intro s total h; exact le_of_eq h
  | cons r rs ih =>
      intro s total h
      obtain ⟨h1, h2, h3, h4⟩ := h
      have := ih r.stop total h4
      omega

theorem chain_getD (runs : List Run) : ∀ (s total : Nat), RunsChain runs s total →
    ∀ j, j < runs.length →
      (runs.getD j default).stop = (runs.getD j default).start + (runs.getD j default).len ∧
      1 ≤ (runs.getD j default).len ∧
      s ≤ (runs.getD j default).start ∧ (runs.getD j default).stop ≤ total := by
  induction runs with
  | nil => intro s total _ j hj; simp at hj
  | cons r rs ih =>
      intro s total h j hj
      obtain ⟨h1, h2, h3, h4⟩ := h
      match j with
      | 0 =>
          have htot := chain_le rs r.stop total h4
          simp only [List.getD_cons_zero]
          omega
      | j + 1 =>
          have := ih r.stop total h4 j (by simpa using hj)
          simp only [List.getD_cons_succ]
          omega

theorem chain_getD_succ (runs : List Run) : ∀ (s total : Nat), RunsChain runs s total →
    ∀ j, j + 1 < runs.length →
      (runs.getD (j + 1) default).start = (runs.getD j default).stop := by
  induction runs with
  | nil => intro s total _ j hj; simp at hj
  | cons r rs ih =>
      intro s total h j hj
      obtain ⟨h1, h2, h3, h4⟩ := h
      match j with
      | 0 =>
          match rs, h4 with
          | r' :: rs', ⟨h1', _, _, _⟩ => simpa using h1'
      | j + 1 =>
          have := ih r.stop total h4 j (by simpa using hj)
          simpa using this

theorem chain_stop_le_start (runs : List Run) (s total : Nat) (hch : RunsChain runs s total) :
    ∀ j k, j < k → k < runs.length →
      (runs.getD j default).stop ≤ (runs.getD k default).start := by
  intro j k
  induction k with
  | zero => omega
  | succ k ihk =>
      intro hjk hk
      rcases Nat.lt_or_ge j k with h | h
      · have h1 := ihk h (by omega)
        have h2 := chain_getD runs s total hch k (by omega)
        have h3 := chain_getD_succ runs s total hch k hk
        omega
      · have : j = k := by omega
        subst this
        exact le_of_eq (chain_getD_succ runs s total hch j hk).symm

/-- The run list computed by `compute_crossfade_schedule` is the maximal-run
partition of the `geo_frame_idx` sequence. -/
theorem computeRuns_partition (seq : List Nat) (h : seq ≠ []) :
    IsRunPartition seq (computeRuns seq) := by
  obtain ⟨g, gs, rfl⟩ := List.exists_cons_of_ne_nil h
  have h0 : computeRuns (g :: gs) = runsFrom gs g 0 1 (g :: gs).length := by
    rw [computeRuns, runsAux_eq_append]
    simp [runsFrom]
  have hdrop : gs = (g :: gs).drop 1 := rfl
  have hlen : 1 + gs.length = (g :: gs).length := by simp [Nat.add_comm]
  obtain ⟨hchain, hcover, hadj, _⟩ :=
    runsFrom_spec gs (g :: gs) g 0 1 Nat.one_pos hlen hdrop
      (by intro idx h1 h2
          have : idx = 0 := by omega
          subst this; rfl)
  exact ⟨h0 ▸ hchain, h0 ▸ hcover, h0 ▸ hadj⟩

theorem compute_crossfade_schedule_eq_foldl (seq : List Nat) (hw : Nat) :
    compute_crossfade_schedule seq hw =
      (List.range ((computeRuns seq).length - 1)).foldl (scheduleStep (computeRuns seq) hw) [] := rfl

theorem boundaryWrites_def (runs : List Run) (hw ri : Nat) :
    boundaryWrites runs hw ri =
      if halfAt runs hw ri < 1 then []
      else
        (List.range (2 * halfAt runs hw ri)).map (fun (k : ℕ) =>
          (((runs.getD (ri + 1) default).start : Int) - halfAt runs hw ri + k,
            ((runs.getD ri default).geo, (runs.getD (ri + 1) default).geo,
              ((k : ℚ) + 1) / (((2 * halfAt runs hw ri : ℕ) : ℚ) + 1)))) := rfl

theorem scheduleStep_def (runs : List Run) (hw : Nat) (cm : List (Int × (Nat × Nat × ℚ)))
    (ri : Nat) :
    scheduleStep runs hw cm ri =
      if halfAt runs hw ri < 1 then cm
      else
        (List.range (2 * halfAt runs hw ri)).foldl (fun cm (k : ℕ) =>
          dictInsert cm (((runs.getD (ri + 1) default).start : Int) - halfAt runs hw ri + k)
            (((runs.getD ri default).geo, (runs.getD (ri + 1) default).geo,
              ((k : ℚ) + 1) / (((2 * halfAt runs hw ri : ℕ) : ℚ) + 1)))) cm := rfl

theorem dictInsert_of_not_mem (m : List (Int × (Nat × Nat × ℚ))) (k : Int) (v : Nat × Nat × ℚ)
    (h : k ∉ m.map Prod.fst) : dictInsert m k v = m ++ [(k, v)] := by
  rw [dictInsert, if_neg]
  simpa using h

theorem foldl_dictInsert_fresh (ws : List (Int × (Nat × Nat × ℚ))) :
    ∀ (cm : List (Int × (Nat × Nat × ℚ))),
      (∀ k ∈ ws.map Prod.fst, k ∉ cm.map Prod.fst) → (ws.map Prod.fst).Nodup →
      ws.foldl (fun cm p => dictInsert cm p.1 p.2) cm = cm ++ ws := by
  induction ws with
  | nil => intro cm _ _; simp
  | cons p ps ih =>
      intro cm hfresh hnd
      rw [List.map_cons, List.nodup_cons] at hnd
      obtain ⟨hnotin, hnd2⟩ := hnd
      simp only [List.foldl_cons]
      rw [dictInsert_of_not_mem _ _ _ (hfresh p.1 (by simp))]
      rw [ih (cm ++ [(p.1, p.2)]) ?_ hnd2]
      · simp
      · intro k hk
        simp only [List.map_append, List.mem_append, List.map_cons, List.map_nil,
          List.mem_singleton, not_or]
        refine ⟨fun hc => hfresh k (by simp [hk]) hc, ?_⟩
        intro hc
        rw [hc] at hk
        exact hnotin hk

theorem mem_boundaryWrites (runs : List Run) (hw ri : Nat) (p : Int × (Nat × Nat × ℚ)) :
    p ∈ boundaryWrites runs hw ri ↔
      1 ≤ halfAt runs hw ri ∧
      ∃ k < 2 * halfAt runs hw ri,
        p = (((runs.getD (ri + 1) default).start : Int) - halfAt runs hw ri + k,
          ((runs.getD ri default).geo, (runs.getD (ri + 1) default).geo,
            ((k : ℚ) + 1) / (((2 * halfAt runs hw ri : ℕ) : ℚ) + 1))) := by
  rw [boundaryWrites_def]
  by_cases h : halfAt runs hw ri < 1
  · rw [if_pos h]
    simp only [List.not_mem_nil, false_iff, not_and]
    intro h1
    omega
  · rw [if_neg h]
    simp only [List.mem_map, List.mem_range]
    constructor
    · rintro ⟨k, hk, rfl⟩
      exact ⟨by omega, k, hk, rfl⟩
    · rintro ⟨_, k, hk, rfl⟩
      exact ⟨k, hk, rfl⟩

theorem boundaryWrites_keys_nodup (runs : List Run) (hw ri : Nat) :
    ((boundaryWrites runs hw ri).map Prod.fst).Nodup := by
  rw [boundaryWrites_def]
  split
  · simp
  · rw [List.map_map]
    have hcomp : (Prod.fst ∘ fun k : Nat =>
        (((runs.getD (ri + 1) default).start : Int) - halfAt runs hw ri + k,
          ((runs.getD ri default).geo, (runs.getD (ri + 1) default).geo,
            ((k : ℚ) + 1) / (((2 * halfAt runs hw ri : ℕ) : ℚ) + 1)))) =
        fun k : Nat => ((runs.getD (ri + 1) default).start : Int) - halfAt runs hw ri + k := rfl
    rw [hcomp]
    refine List.Nodup.map ?_ (List.nodup_range _)
    intro a b hab
    have hab2 : ((runs.getD (ri + 1) default).start : Int) - halfAt runs hw ri + a =
        ((runs.getD (ri + 1) default).start : Int) - halfAt runs hw ri + b := hab
    have : (a : Int) = b := by omega
    exact_mod_cast this

theorem scheduleStep_eq (runs : List Run) (hw : Nat) (ri : Nat)
    (cm : List (Int × (Nat × Nat × ℚ)))
    (hfresh : ∀ p ∈ boundaryWrites runs hw ri, p.1 ∉ cm.map Prod.fst) :
    scheduleStep runs hw cm ri = cm ++ boundaryWrites runs hw ri := by
  rw [scheduleStep_def, boundaryWrites_def]
  by_cases h : halfAt runs hw ri < 1
  · rw [if_pos h, if_pos h, List.append_nil]
  · rw [if_neg h, if_neg h]
    rw [← List.foldl_map
      (fun k : Nat =>
        (((runs.getD (ri + 1) default).start : Int) - halfAt runs hw ri + k,
          ((runs.getD ri default).geo, (runs.getD (ri + 1) default).geo,
            ((k : ℚ) + 1) / (((2 * halfAt runs hw ri : ℕ) : ℚ) + 1))))
      (fun cm p => dictInsert cm p.1 p.2)]
    rw [foldl_dictInsert_fresh]
    · intro k hk
      simp only [List.mem_map] at hk
      obtain ⟨p, hp, rfl⟩ := hk
      refine hfresh p ?_
      rw [boundaryWrites_def, if_neg h]
      exact List.mem_map.mpr hp
    · have hnd := boundaryWrites_keys_nodup runs hw ri
      rw [boundaryWrites_def, if_neg h] at hnd
      exact hnd

theorem halfAt_le (runs : List Run) (hw ri : Nat) :
    halfAt runs hw ri ≤ (runs.getD ri default).len / 2 ∧
    halfAt runs hw ri ≤ (runs.getD (ri + 1) default).len / 2 := by
  constructor
  · exact le_trans (min_le_left _ _) (min_le_left _ _)
  · exact le_trans (min_le_left _ _) (min_le_right _ _)

theorem boundaryWrites_key_bounds (runs : List Run) (hw ri : Nat) :
    ∀ p ∈ boundaryWrites runs hw ri,
      1 ≤ halfAt runs hw ri ∧
      ((runs.getD (ri + 1) default).start : Int) - halfAt runs hw ri ≤ p.1 ∧
      p.1 < ((runs.getD (ri + 1) default).start : Int) + halfAt runs hw ri := by
  intro p hp
  rw [mem_boundaryWrites] at hp
  obtain ⟨h1, k, hk, rfl⟩ := hp
  refine ⟨h1, ?_, ?_⟩
  · show ((runs.getD (ri + 1) default).start : Int) - halfAt runs hw ri ≤
      ((runs.getD (ri + 1) default).start : Int) - halfAt runs hw ri + k
    omega
  · show ((runs.getD (ri + 1) default).start : Int) - halfAt runs hw ri + k <
      ((runs.getD (ri + 1) default).start : Int) + halfAt runs hw ri
    omega

theorem boundary_keys_lt (runs : List Run) (s total hw : Nat) (hch : RunsChain runs s total)
    (ri rj : Nat) (hij : ri < rj) (hrj : rj + 1 < runs.length) :
    ∀ p ∈ boundaryWrites runs hw ri, ∀ q ∈ boundaryWrites runs hw rj, p.1 < q.1 := by
  intro p hp q hq
  obtain ⟨hpi, hplo, hphi⟩ := boundaryWrites_key_bounds runs hw ri p hp
  obtain ⟨hqi, hqlo, hqhi⟩ := boundaryWrites_key_bounds runs hw rj q hq
  have hri : ri + 1 < runs.length := by omega
  have hB := chain_getD runs s total hch (ri + 1) (by omega)
  have hC := chain_getD runs s total hch rj (by omega)
  have hsuccJ := chain_getD_succ runs s total hch rj hrj
  have hhalfI := halfAt_le runs hw ri
  have hhalfJ := halfAt_le runs hw rj
  rcases Nat.lt_or_ge (ri + 1) rj with hcase | hcase
  · have hmono := chain_stop_le_start runs s total hch (ri + 1) rj hcase (by omega)
    omega
  · have : rj = ri + 1 := by omega
    subst this
    omega

theorem foldl_scheduleStep_eq (runs : List Run) (hw : Nat) (l : List Nat) :
    ∀ (cm : List (Int × (Nat × Nat × ℚ))),
      List.Pairwise (fun ri rj => ∀ p ∈ boundaryWrites runs hw ri,
        ∀ q ∈ boundaryWrites runs hw rj, p.1 ≠ q.1) l →
      (∀ ri ∈ l, ∀ p ∈ boundaryWrites runs hw ri, p.1 ∉ cm.map Prod.fst) →
      l.foldl (scheduleStep runs hw) cm = cm ++ l.flatMap (boundaryWrites runs hw) := by
  induction l with
  | nil => intro cm _ _; simp
  | cons ri l ih =>
      intro cm hpw hfresh
      rw [List.pairwise_cons] at hpw
      obtain ⟨hhead, hpw2⟩ := hpw
      simp only [List.foldl_cons]
      rw [scheduleStep_eq runs hw ri cm (hfresh ri (by simp))]
      rw [ih (cm ++ boundaryWrites runs hw ri) hpw2 ?_]
      · simp
      · intro rj hrj p hp
        simp only [List.map_append, List.mem_append, not_or]
        refine ⟨fun hc => hfresh rj (by simp [hrj]) p hp hc, fun hc => ?_⟩
        simp only [List.mem_map] at hc
        obtain ⟨q, hq, hqe⟩ := hc
        exact hhead rj hrj q hq p hp hqe

/-- The Python-dict schedule coincides with the plain concatenation of all
boundary window writes: no write ever overwrites an earlier one. -/
theorem schedule_eq_writes (seq : List Nat) (hw : Nat) (h : seq ≠ []) :
    compute_crossfade_schedule seq hw = scheduleWrites seq hw := by
  obtain ⟨hch, _, _⟩ := computeRuns_partition seq h
  rw [compute_crossfade_schedule_eq_foldl, scheduleWrites]
  rw [foldl_scheduleStep_eq (computeRuns seq) hw _ [] ?_ ?_]
  · simp
  · have hpw := List.pairwise_lt_range ((computeRuns seq).length - 1)
    refine List.Pairwise.imp_of_mem ?_ hpw
    intro ri rj hri hrj hlt p hp q hq
    have hrj2 : rj + 1 < (computeRuns seq).length := by
      rw [List.mem_range] at hrj
      omega
    exact ne_of_lt (boundary_keys_lt (computeRuns seq) 0 seq.length hw hch ri rj hlt hrj2 p hp q hq)
  · intro ri _ p _ hmem
    simp at hmem

theorem mapLookup_append (m1 : List (Int × (Nat × Nat × ℚ))) :
    ∀ (m2 : List (Int × (Nat × Nat × ℚ))) (k : Int),
      mapLookup (m1 ++ m2) k =
        match mapLookup m1 k with
        | some v => some v
        | none => mapLookup m2 k := by
  induction m1 with
  | nil => intro m2 k; rfl
  | cons p ps ih =>
      intro m2 k
      obtain ⟨k', v⟩ := p
      simp only [List.cons_append, mapLookup]
      by_cases h : k' = k
      · rw [if_pos h, if_pos h]
      · rw [if_neg h, if_neg h]
        exact ih m2 k

theorem mapLookup_map_range (n : Nat) (base : Int) (v : Nat → Nat × Nat × ℚ) (k : Int) :
    mapLookup ((List.range n).map (fun (j : ℕ) => (base + (j : Int), v j))) k =
      if base ≤ k ∧ k < base + n then some (v (k - base).toNat) else none := by
  induction n with
  | zero =>
      rw [if_neg (by omega)]
      rfl
  | succ n ih =>
      rw [List.range_succ, List.map_append, mapLookup_append, ih]
      by_cases h : base ≤ k ∧ k < base + n
      · rw [if_pos h, if_pos (by omega)]
      · rw [if_neg h]
        simp only [List.map_cons, List.map_nil, mapLookup]
        by_cases h2 : base + (n : Int) = k
        · rw [if_pos h2, if_pos (by omega)]
          have : (k - base).toNat = n := by omega
          rw [this]
        · rw [if_neg h2, if_neg (by omega)]

theorem mapLookup_boundaryWrites (runs : List Run) (hw ri : Nat) (idx : Int) :
    mapLookup (boundaryWrites runs hw ri) idx =
      if 1 ≤ halfAt runs hw ri ∧
          ((runs.getD (ri + 1) default).start : Int) - halfAt runs hw ri ≤ idx ∧
          idx < ((runs.getD (ri + 1) default).start : Int) + halfAt runs hw ri then
        some ((runs.getD ri default).geo, (runs.getD (ri + 1) default).geo,
          ((idx - (((runs.getD (ri + 1) default).start : Int) - halfAt runs hw ri) + 1 : Int) : ℚ) /
            (((2 * halfAt runs hw ri : ℕ) : ℚ) + 1))
      else none := by
  rw [boundaryWrites_def]
  by_cases h : halfAt runs hw ri < 1
  · rw [if_pos h, if_neg (by omega)]
    rfl
  · rw [if_neg h, mapLookup_map_range (2 * halfAt runs hw ri)
      (((runs.getD (ri + 1) default).start : Int) - halfAt runs hw ri)
      (fun k => ((runs.getD ri default).geo, (runs.getD (ri + 1) default).geo,
        ((k : ℚ) + 1) / (((2 * halfAt runs hw ri : ℕ) : ℚ) + 1))) idx]
    by_cases h2 : ((runs.getD (ri + 1) default).start : Int) - halfAt runs hw ri ≤ idx ∧
        idx < ((runs.getD (ri + 1) default).start : Int) - halfAt runs hw ri + (2 * halfAt runs hw ri : ℕ)
    · rw [if_pos h2, if_pos (by omega)]
      have hcast : (((idx - (((runs.getD (ri + 1) default).start : Int) - halfAt runs hw ri)).toNat : ℚ)) =
          ((idx - (((runs.getD (ri + 1) default).start : Int) - halfAt runs hw ri) : Int) : ℚ) := by
        have hnn : 0 ≤ idx - (((runs.getD (ri + 1) default).start : Int) - halfAt runs hw ri) := by omega
        exact_mod_cast congrArg (fun z : Int => (z : ℚ)) (Int.toNat_of_nonneg hnn)
      rw [hcast]
      push_cast
      ring_nf
    · rw [if_neg h2, if_neg (by omega)]

theorem mapLookup_flatMap (bw : Nat → List (Int × (Nat × Nat × ℚ))) (l : List Nat) (k : Int) :
    mapLookup (l.flatMap bw) k = l.findSome? (fun ri => mapLookup (bw ri) k) := by
  induction l with
  | nil => rfl
  | cons ri l ih =>
      rw [List.flatMap_cons, mapLookup_append, List.findSome?_cons, ih]
      cases mapLookup (bw ri) k <;> rfl

/-- Master characterization: the Python dict built by
`compute_crossfade_schedule` stores, for every frame index, exactly the
assignment the specification prescribes. -/
theorem mapLookup_schedule (seq : List Nat) (hw : Nat) (h : seq ≠ []) (idx : Int) :
    mapLookup (compute_crossfade_schedule seq hw) idx = crossfadeAssignSpec seq hw idx := by
  rw [schedule_eq_writes seq hw h, scheduleWrites, mapLookup_flatMap, crossfadeAssignSpec]
  simp only [mapLookup_boundaryWrites]

theorem inWindow_mem_boundaryWrites (runs : List Run) (hw j : Nat) (idx : Int)
    (h : InWindow runs hw j idx) :
    ∃ v, (idx, v) ∈ boundaryWrites runs hw j := by
  obtain ⟨h1, h2, h3⟩ := h
  set lo : Int := ((runs.getD (j + 1) default).start : Int) - halfAt runs hw j with hlo
  set k : ℕ := (idx - lo).toNat with hk
  refine ⟨((runs.getD j default).geo, (runs.getD (j + 1) default).geo,
    ((k : ℚ) + 1) / (((2 * halfAt runs hw j : ℕ) : ℚ) + 1)), ?_⟩
  rw [mem_boundaryWrites]
  refine ⟨h1, k, by omega, ?_⟩
  rw [Prod.mk.injEq]
  exact ⟨by omega, rfl⟩

theorem window_unique (runs : List Run) (s total hw : Nat) (hch : RunsChain runs s total)
    (j j' : Nat) (hj : j + 1 < runs.length) (hj' : j' + 1 < runs.length) (idx : Int)
    (h : InWindow runs hw j idx) (h' : InWindow runs hw j' idx) : j = j' := by
  by_contra hne
  obtain ⟨v, hv⟩ := inWindow_mem_boundaryWrites runs hw j idx h
  obtain ⟨v', hv'⟩ := inWindow_mem_boundaryWrites runs hw j' idx h'
  rcases Nat.lt_or_ge j j' with hlt | hge
  · have := boundary_keys_lt runs s total hw hch j j' hlt hj' (idx, v) hv (idx, v') hv'
    simp at this
  · have hlt : j' < j := by omega
    have := boundary_keys_lt runs s total hw hch j' j hlt hj (idx, v') hv' (idx, v) hv
    simp at this

theorem findSome?_of_unique {α : Type} (f : Nat → Option α) :
    ∀ (l : List Nat) (j : Nat), j ∈ l → (∀ j2 ∈ l, j2 ≠ j → f j2 = none) →
      l.findSome? f = f j := by
  intro l
  induction l with
  | nil => intro j hj; simp at hj
  | cons a l ih =>
      intro j hj hothers
      rw [List.findSome?_cons]
      by_cases ha : a = j
      · subst ha
        cases hfa : f a with
        | some v => rfl
        | none =>
            rw [List.findSome?_eq_none_iff.mpr]
            intro j2 hj2
            by_cases h2 : j2 = a
            · rw [h2, hfa]
            · exact hothers j2 (by simp [hj2]) h2
      · rw [hothers a (by simp) ha]
        refine ih j ?_ (fun j2 hj2 => hothers j2 (by simp [hj2]))
        rcases List.mem_cons.mp hj with h | h
        · exact absurd h.symm ha
        · exact h

theorem alphaAt_pos_lt_one (runs : List Run) (hw j : Nat) (idx : Int)
    (h : InWindow runs hw j idx) :
    0 < alphaAt runs hw j idx ∧ alphaAt runs hw j idx < 1 := by
  obtain ⟨h1, h2, h3⟩ := h
  have hden : (0 : ℚ) < ((2 * halfAt runs hw j : ℕ) : ℚ) + 1 := by positivity
  have hnum_lb : (0 : ℚ) <
      ((idx - (((runs.getD (j + 1) default).start : Int) - halfAt runs hw j) + 1 : Int) : ℚ) := by
    have : (0 : Int) < idx - (((runs.getD (j + 1) default).start : Int) - halfAt runs hw j) + 1 := by
      omega
    exact_mod_cast this
  have hnum_ub :
      ((idx - (((runs.getD (j + 1) default).start : Int) - halfAt runs hw j) + 1 : Int) : ℚ) <
        ((2 * halfAt runs hw j : ℕ) : ℚ) + 1 := by
    have : idx - (((runs.getD (j + 1) default).start : Int) - halfAt runs hw j) + 1 <
        ((2 * halfAt runs hw j : ℕ) : Int) + 1 := by omega
    exact_mod_cast this
  constructor
  · exact div_pos hnum_lb hden
  · rw [alphaAt, div_lt_one hden]
    exact hnum_ub

theorem alphaAt_strict_mono (runs : List Run) (hw j : Nat) (idx idx' : Int)
    (h : InWindow runs hw j idx) (_h' : InWindow runs hw j idx') (hlt : idx < idx') :
    alphaAt runs hw j idx < alphaAt runs hw j idx' := by
  obtain ⟨h1, _, _⟩ := h
  have hden : (0 : ℚ) < ((2 * halfAt runs hw j : ℕ) : ℚ) + 1 := by positivity
  rw [alphaAt, alphaAt, div_lt_div_iff_of_pos_right hden]
  have : (idx - (((runs.getD (j + 1) default).start : Int) - halfAt runs hw j) + 1 : Int) <
      (idx' - (((runs.getD (j + 1) default).start : Int) - halfAt runs hw j) + 1 : Int) := by
    omega
  exact_mod_cast this

theorem mapLookup_schedule_of_inWindow (seq : List Nat) (hw : Nat) (h : seq ≠ [])
    (j : Nat) (idx : Int) (hj : j + 1 < (computeRuns seq).length)
    (hwin : InWindow (computeRuns seq) hw j idx) :
    mapLookup (compute_crossfade_schedule seq hw) idx =
      some (((computeRuns seq).getD j default).geo,
        ((computeRuns seq).getD (j + 1) default).geo,
        alphaAt (computeRuns seq) hw j idx) := by
  rw [mapLookup_schedule seq hw h idx, crossfadeAssignSpec]
  have hch := (computeRuns_partition seq h).1
  rw [findSome?_of_unique _ (List.range ((computeRuns seq).length - 1)) j
      (List.mem_range.mpr (by omega)) ?_]
  · obtain ⟨w1, w2, w3⟩ := hwin
    rw [if_pos ⟨w1, w2, w3⟩]
    rfl
  · intro j2 hj2 hne
    rw [if_neg]
    intro hcon
    exact hne (window_unique (computeRuns seq) 0 seq.length hw hch j2 j
      (by rw [List.mem_range] at hj2; omega) hj idx hcon hwin)

theorem mapLookup_schedule_of_noWindow (seq : List Nat) (hw : Nat) (h : seq ≠ []) (idx : Int)
    (hno : ∀ j, ¬ InWindow (computeRuns seq) hw j idx) :
    mapLookup (compute_crossfade_schedule seq hw) idx = none := by
  rw [mapLookup_schedule seq hw h idx, crossfadeAssignSpec]
  exact List.findSome?_eq_none_iff.mpr
    (fun j _ => by rw [if_neg (fun hcon => hno j ⟨hcon.1, hcon.2.1, hcon.2.2⟩)])

theorem schedule_concrete_example :
    compute_crossfade_schedule [0,0,0,0,0,0,0,0,0,0,1,1,1,1,1,1,1,1,1,1] 2 =
      [(8, (0, 1, 1/5)), (9, (0, 1, 2/5)), (10, (0, 1, 3/5)), (11, (0, 1, 4/5))] := by
  rw [schedule_eq_writes _ 2 (by decide), scheduleWrites]
  have hruns : computeRuns [0,0,0,0,0,0,0,0,0,0,1,1,1,1,1,1,1,1,1,1] =
      [⟨0, 0, 10, 10⟩, ⟨1, 10, 20, 10⟩] := by decide
  rw [hruns]
  norm_num [boundaryWrites_def, halfAt, List.range_succ, List.getD]
end RenderGlobe

theorem renderFlat_runsAux_eq (rest : List Nat) :
    ∀ (prev run_start i total : Nat) (acc : List Run),
      RenderFlat.runsAux rest prev run_start i total acc =
        RenderGlobe.runsAux rest prev run_start i total acc := by
  induction rest with
  | nil => intro prev run_start i total acc; rfl
  | cons g gs ih =>
      intro prev run_start i total acc
      simp only [RenderFlat.runsAux, RenderGlobe.runsAux, ih]

theorem testCrossfade_runsAux_eq (rest : List Nat) :
    ∀ (prev run_start i total : Nat) (acc : List Run),
      TestCrossfade.runsAux rest prev run_start i total acc =
        RenderGlobe.runsAux rest prev run_start i total acc := by
  induction rest with
  | nil => intro prev run_start i total acc; rfl
  | cons g gs ih =>
      intro prev run_start i total acc
      simp only [TestCrossfade.runsAux, RenderGlobe.runsAux, ih]

theorem renderFlat_computeRuns_eq : RenderFlat.computeRuns = RenderGlobe.computeRuns := by
  funext pf
  simp only [RenderFlat.computeRuns, RenderGlobe.computeRuns, renderFlat_runsAux_eq]

theorem testCrossfade_computeRuns_eq : TestCrossfade.computeRuns = RenderGlobe.computeRuns := by
  funext pf
  simp only [TestCrossfade.computeRuns, RenderGlobe.computeRuns, testCrossfade_runsAux_eq]

theorem renderFlat_dictInsert_eq : RenderFlat.dictInsert = RenderGlobe.dictInsert := rfl

theorem testCrossfade_dictInsert_eq : TestCrossfade.dictInsert = RenderGlobe.dictInsert := rfl

theorem renderFlat_schedule_eq :
    RenderFlat.compute_crossfade_schedule = RenderGlobe.compute_crossfade_schedule := by
  funext pf ch
  simp only [RenderFlat.compute_crossfade_schedule, RenderGlobe.compute_crossfade_schedule,
    renderFlat_computeRuns_eq, renderFlat_dictInsert_eq]

theorem testCrossfade_schedule_eq :
    TestCrossfade.compute_crossfade_schedule = RenderGlobe.compute_crossfade_schedule := by
  funext pf ch
  simp only [TestCrossfade.compute_crossfade_schedule, RenderGlobe.compute_crossfade_schedule,
    testCrossfade_computeRuns_eq, testCrossfade_dictInsert_eq]
namespace CameraPath

theorem interp1d_low (x0 y0 x1 y1 : ℚ) (rest : List (ℚ × ℚ)) (x : ℚ) (h : x ≤ x1) :
    interp1d_linear ((x0, y0) :: (x1, y1) :: rest) x = lerp x0 y0 x1 y1 x := by
  rw [interp1d_linear, if_pos (Or.inl h)]

theorem iter_lt (p : List Nat) (hb : ∀ i, i < p.length → pfun p i < p.length)
    (i : Nat) (hi : i < p.length) : ∀ k, (pfun p)^[k] i < p.length := by
  intro k
  induction k with
  | zero => simpa
  | succ k ih =>
      rw [Function.iterate_succ_apply']
      exact hb _ ih

theorem iter_of_fixed (f : Nat → Nat) (x : Nat) (hx : f x = x) : ∀ m, f^[m] x = x := by
  intro m
  induction m with
  | zero => rfl
  | succ m ih => rw [Function.iterate_succ_apply', ih, hx]

theorem fix_unique (f : Nat → Nat) (i k k' : Nat)
    (h : f (f^[k] i) = f^[k] i) (h' : f (f^[k'] i) = f^[k'] i) :
    f^[k] i = f^[k'] i := by
  rcases Nat.le_total k k' with hle | hle
  · obtain ⟨m, rfl⟩ := Nat.exists_eq_add_of_le hle
    rw [Nat.add_comm, Function.iterate_add_apply]
    exact (iter_of_fixed f _ h m).symm
  · obtain ⟨m, rfl⟩ := Nat.exists_eq_add_of_le hle
    rw [Nat.add_comm k' m, Function.iterate_add_apply]
    exact iter_of_fixed f _ h' m

theorem fix_index_lt_aux (p : List Nat) (hb : ∀ i, i < p.length → pfun p i < p.length)
    (i : Nat) (K a b : Nat) (hab : a < b) (hbn : b ≤ K)
    (heq : (pfun p)^[a] i = (pfun p)^[b] i)
    (hfixK : pfun p ((pfun p)^[K] i) = (pfun p)^[K] i) :
    pfun p ((pfun p)^[K - (b - a)] i) = (pfun p)^[K - (b - a)] i := by
  have e1 : (pfun p)^[K] i = (pfun p)^[K - b] ((pfun p)^[b] i) := by
    rw [← Function.iterate_add_apply]
    congr 1
    omega
  have e2 : (pfun p)^[K - b] ((pfun p)^[a] i) = (pfun p)^[K - b + a] i :=
    (Function.iterate_add_apply (pfun p) (K - b) a i).symm
  have e3 : (pfun p)^[K] i = (pfun p)^[K - (b - a)] i := by
    rw [e1, ← heq, e2]
    congr 1
    omega
  rw [← e3]
  exact hfixK

theorem exists_fix_lt (p : List Nat) (hb : ∀ i, i < p.length → pfun p i < p.length)
    (i : Nat) (hi : i < p.length)
    (hfix : ∃ k, pfun p ((pfun p)^[k] i) = (pfun p)^[k] i) :
    ∃ k, k < p.length ∧ pfun p ((pfun p)^[k] i) = (pfun p)^[k] i := by
  by_contra hcon
  push_neg at hcon
  have hK := Nat.find_spec hfix
  have hKmin := fun m => Nat.find_min hfix (m := m)
  set K := Nat.find hfix with hKdef
  have hKn : p.length ≤ K := by
    by_contra hlt
    push_neg at hlt
    exact hcon K hlt hK
  obtain ⟨x, hx, y, hy, hxy, hmapeq⟩ :=
    Finset.exists_ne_map_eq_of_card_lt_of_maps_to
      (s := Finset.range (p.length + 1)) (t := Finset.range p.length)
      (by simp) (fun j _ => Finset.mem_range.mpr (iter_lt p hb i hi j))
  rw [Finset.mem_range] at hx hy
  have key : ∀ a b, a < b → b ≤ p.length → (pfun p)^[a] i = (pfun p)^[b] i → False := by
    intro a b hab hbn heq
    have hfix2 := fix_index_lt_aux p hb i K a b hab (by omega) heq hK
    have := hKmin (m := K - (b - a)) (by omega)
    exact this hfix2
  rcases Nat.lt_or_ge x y with hlt | hge
  · exact key x y hlt (by omega) hmapeq
  · have hlt : y < x := by omega
    exact key y x hlt (by omega) hmapeq.symm

theorem rootAux_eq_of_fix (fuel : Nat) : ∀ (p : List Nat) (i k : Nat), k ≤ fuel →
    pfun p ((pfun p)^[k] i) = (pfun p)^[k] i → rootAux fuel p i = (pfun p)^[k] i := by
  induction fuel with
  | zero =>
      intro p i k hk hfix
      interval_cases k
      simp only [Function.iterate_zero_apply]
      rfl
  | succ fuel ih =>
      intro p i k hk hfix
      rw [rootAux]
      by_cases h : pfun p i = i
      · rw [if_pos h, iter_of_fixed (pfun p) i h k]
      · rw [if_neg h]
        match k with
        | 0 => simp at hfix; exact absurd hfix h
        | k + 1 =>
            have : (pfun p)^[k + 1] i = (pfun p)^[k] (pfun p i) :=
              Function.iterate_succ_apply (pfun p) k i
            rw [this] at hfix ⊢
            exact ih p (pfun p i) k (by omega) hfix

theorem root_eq_of_reach (p : List Nat) (hb : ∀ i, i < p.length → pfun p i < p.length)
    (i : Nat) (hi : i < p.length) (k : Nat)
    (hfix : pfun p ((pfun p)^[k] i) = (pfun p)^[k] i) :
    root p i = (pfun p)^[k] i := by
  obtain ⟨k0, hk0, hfix0⟩ := exists_fix_lt p hb i hi ⟨k, hfix⟩
  rw [root, rootAux_eq_of_fix p.length p i k0 (by omega) hfix0]
  exact fix_unique (pfun p) i k0 k hfix0 hfix

theorem root_reach (p : List Nat) (hwf : UFWF p) (i : Nat) (hi : i < p.length) :
    ∃ k, (pfun p)^[k] i = root p i ∧ pfun p (root p i) = root p i ∧ root p i < p.length := by
  obtain ⟨hb, hex⟩ := hwf
  obtain ⟨k0, hk0, hfix0⟩ := exists_fix_lt p hb i hi (hex i hi)
  have := root_eq_of_reach p hb i hi k0 hfix0
  exact ⟨k0, this.symm, by rw [this]; exact hfix0, this ▸ iter_lt p hb i hi k0⟩

theorem pfun_set_self (p : List Nat) (i v : Nat) (hi : i < p.length) :
    pfun (p.set i v) i = v := by
  rw [pfun, List.getD_eq_getElem?_getD, List.getElem?_set_self (by simpa using hi)]
  rfl

theorem pfun_set_ne (p : List Nat) (i v j : Nat) (hij : j ≠ i) :
    pfun (p.set i v) j = pfun p j := by
  rw [pfun, pfun, List.getD_eq_getElem?_getD, List.getD_eq_getElem?_getD,
    List.getElem?_set_ne (fun h => hij h.symm)]

/-- Effect of one path-compression write `parent[i0] = parent[parent[i0]]`:
every node still reaches the same root, in no more steps than before. -/
theorem compress_reach (p : List Nat) (hb : ∀ x, x < p.length → pfun p x < p.length)
    (i0 : Nat) (hi0 : i0 < p.length) (hne0 : pfun p i0 ≠ i0) :
    ∀ K j, j < p.length → pfun p ((pfun p)^[K] j) = (pfun p)^[K] j →
      ∃ Kp, Kp ≤ K ∧
        (pfun (p.set i0 (pfun p (pfun p i0))))^[Kp] j = (pfun p)^[K] j ∧
        pfun (p.set i0 (pfun p (pfun p i0))) ((pfun p)^[K] j) = (pfun p)^[K] j := by
  intro K
  induction K using Nat.strong_induction_on with
  | _ K ih =>
    intro j hj hfix
    have hg_ne : ∀ x, x ≠ i0 → pfun (p.set i0 (pfun p (pfun p i0))) x = pfun p x :=
      fun x hx => pfun_set_ne p i0 _ x hx
    have hg_i0 : pfun (p.set i0 (pfun p (pfun p i0))) i0 = pfun p (pfun p i0) :=
      pfun_set_self p i0 _ hi0
    have hval_ne : (pfun p)^[K] j ≠ i0 := by
      intro hv
      rw [hv] at hfix
      exact hne0 hfix
    have hfix_g : pfun (p.set i0 (pfun p (pfun p i0))) ((pfun p)^[K] j) = (pfun p)^[K] j := by
      rw [hg_ne _ hval_ne]
      exact hfix
    by_cases hjfix : pfun p j = j
    · have hv : (pfun p)^[K] j = j := iter_of_fixed (pfun p) j hjfix K
      refine ⟨0, Nat.zero_le _, ?_, hfix_g⟩
      simp only [Function.iterate_zero_apply, hv]
    · by_cases hji : j = i0
      · subst hji
        have hK1 : K ≠ 0 := by
          intro h0
          subst h0
          exact hjfix (by simpa using hfix)
        obtain ⟨K1, rfl⟩ : ∃ K1, K = K1 + 1 := ⟨K - 1, by omega⟩
        by_cases hK10 : K1 = 0
        · subst hK10
          have h1 : pfun p (pfun p j) = pfun p j := by simpa using hfix
          refine ⟨1, le_rfl, ?_, hfix_g⟩
          simp only [Function.iterate_one]
          rw [hg_i0, h1]
          simp
        · obtain ⟨K2, rfl⟩ : ∃ K2, K1 = K2 + 1 := ⟨K1 - 1, by omega⟩
          have hj2lt : pfun p (pfun p j) < p.length := hb _ (hb _ hi0)
          have hval : (pfun p)^[K2] (pfun p (pfun p j)) = (pfun p)^[K2 + 2] j := by
            rw [show pfun p (pfun p j) = (pfun p)^[2] j from rfl,
              ← Function.iterate_add_apply]
          have hfix2 : pfun p ((pfun p)^[K2] (pfun p (pfun p j))) =
              (pfun p)^[K2] (pfun p (pfun p j)) := by
            rw [hval]
            exact hfix
          obtain ⟨Kp, hKp, hreach, _⟩ := ih K2 (by omega) _ hj2lt hfix2
          refine ⟨Kp + 1, by omega, ?_, hfix_g⟩
          rw [Function.iterate_succ_apply, hg_i0, hreach, hval]
      · have hK1 : K ≠ 0 := by
          intro h0
          subst h0
          exact hjfix (by simpa using hfix)
        obtain ⟨K1, rfl⟩ : ∃ K1, K = K1 + 1 := ⟨K - 1, by omega⟩
        have hfjlt : pfun p j < p.length := hb j hj
        have hfix2 : pfun p ((pfun p)^[K1] (pfun p j)) = (pfun p)^[K1] (pfun p j) := by
          rw [← Function.iterate_succ_apply]
          exact hfix
        obtain ⟨Kp, hKp, hreach, _⟩ := ih K1 (by omega) _ hfjlt hfix2
        refine ⟨Kp + 1, by omega, ?_, hfix_g⟩
        rw [Function.iterate_succ_apply, hg_ne j hji, hreach, ← Function.iterate_succ_apply]

/-- Specification of `find_root`: with enough fuel, on a forest with
in-range parents, it returns the eventual root of `i`, and every node of
the compressed parent list still reaches its old root. -/
theorem find_root_spec :
    ∀ (K fuel : Nat) (p : List Nat) (i : Nat),
      (∀ x, x < p.length → pfun p x < p.length) → i < p.length → K ≤ fuel →
      pfun p ((pfun p)^[K] i) = (pfun p)^[K] i →
      (find_root fuel p i).1.length = p.length ∧
      (∀ x, x < p.length → pfun (find_root fuel p i).1 x < p.length) ∧
      (find_root fuel p i).2 = (pfun p)^[K] i ∧
      (∀ j, j < p.length → ∀ Kj, pfun p ((pfun p)^[Kj] j) = (pfun p)^[Kj] j →
        ∃ Kp, Kp ≤ Kj ∧ (pfun (find_root fuel p i).1)^[Kp] j = (pfun p)^[Kj] j ∧
          pfun (find_root fuel p i).1 ((pfun p)^[Kj] j) = (pfun p)^[Kj] j) := by
  intro K
  induction K using Nat.strong_induction_on with
  | _ K ih =>
    intro fuel p i hb hi hKfuel hfix
    match fuel with
    | 0 =>
        interval_cases K
        simp only [Function.iterate_zero_apply] at hfix
        rw [show find_root 0 p i = (p, i) from rfl]
        refine ⟨rfl, hb, by simp, ?_⟩
        intro j hj Kj hfixj
        exact ⟨Kj, le_rfl, rfl, hfixj⟩
    | fuel + 1 =>
        rw [find_root]
        by_cases hroot : p.getD i 0 ≠ i
        · rw [if_pos hroot]
          have hroot2 : pfun p i ≠ i := hroot
          have hK1 : K ≠ 0 := by
            intro h0
            subst h0
            exact hroot2 (by simpa using hfix)
          obtain ⟨K1, rfl⟩ : ∃ K1, K = K1 + 1 := ⟨K - 1, by omega⟩
          have hgp_eq : p.getD (p.getD i 0) 0 = pfun p (pfun p i) := rfl
          have hgp_lt : pfun p (pfun p i) < p.length := hb _ (hb _ hi)
          have hlen1 : (p.set i (pfun p (pfun p i))).length = p.length := by
            rw [List.length_set]
          have hb1 : ∀ x, x < (p.set i (pfun p (pfun p i))).length →
              pfun (p.set i (pfun p (pfun p i))) x < (p.set i (pfun p (pfun p i))).length := by
            intro x hx
            rw [hlen1] at hx ⊢
            by_cases hxi : x = i
            · subst hxi
              rw [pfun_set_self p x _ hx]
              exact hgp_lt
            · rw [pfun_set_ne p i _ x hxi]
              exact hb x hx
          -- the eventual value
          have hval_fix_gp : pfun p ((pfun p)^[K1 - 1] (pfun p (pfun p i))) =
              (pfun p)^[K1 - 1] (pfun p (pfun p i)) ∧
              (pfun p)^[K1 - 1] (pfun p (pfun p i)) = (pfun p)^[K1 + 1] i := by
            by_cases hK10 : K1 = 0
            · subst hK10
              have h1 : pfun p (pfun p i) = pfun p i := by simpa using hfix
              constructor
              · simpa [h1] using hfix
              · simpa using h1
            · have he : (pfun p)^[K1 - 1] (pfun p (pfun p i)) = (pfun p)^[K1 + 1] i := by
                rw [show pfun p (pfun p i) = (pfun p)^[2] i from rfl,
                  ← Function.iterate_add_apply]
                congr 1
                omega
              refine ⟨?_, he⟩
              rw [he]
              exact hfix
          obtain ⟨Kp, hKp, hreach_gp, hfix_gp⟩ :=
            compress_reach p hb i hi hroot2 (K1 - 1) (pfun p (pfun p i)) hgp_lt hval_fix_gp.1
          -- fix for gp w.r.t. compressed parent at index Kp
          have hfix_v : pfun (p.set i (pfun p (pfun p i)))
              ((pfun (p.set i (pfun p (pfun p i))))^[Kp] (pfun p (pfun p i))) =
              (pfun (p.set i (pfun p (pfun p i))))^[Kp] (pfun p (pfun p i)) := by
            rw [hreach_gp]
            rw [hval_fix_gp.2] at hfix_gp ⊢
            exact hfix_gp
          obtain ⟨ihlen, ihb, ihr, ihpres⟩ :=
            ih Kp (by omega) fuel (p.set i (pfun p (pfun p i))) (pfun p (pfun p i))
              hb1 (by rw [hlen1]; exact hgp_lt) (by omega) hfix_v
          rw [hlen1] at ihlen ihb
          refine ⟨by rw [← hgp_eq] at ihlen; exact ihlen, ?_, ?_, ?_⟩
          · rw [← hgp_eq] at ihb
            exact ihb
          · rw [← hgp_eq] at ihr
            rw [ihr, hgp_eq, hreach_gp, hval_fix_gp.2]
          · intro j hj Kj hfixj
            obtain ⟨Kp1, hKp1, hreach1, hfix1⟩ :=
              compress_reach p hb i hi hroot2 Kj j hj hfixj
            have hfixv1 : pfun (p.set i (pfun p (pfun p i)))
                ((pfun (p.set i (pfun p (pfun p i))))^[Kp1] j) =
                (pfun (p.set i (pfun p (pfun p i))))^[Kp1] j := by
              rw [hreach1]
              exact hfix1
            obtain ⟨Kp2, hKp2, hreach2, hfix2⟩ :=
              ihpres j (by rw [hlen1]; exact hj) Kp1 hfixv1
            rw [hreach1] at hreach2 hfix2
            rw [← hgp_eq] at hreach2 hfix2
            exact ⟨Kp2, by omega, hreach2, hfix2⟩
        · rw [if_neg hroot]
          push_neg at hroot
          have hv : (pfun p)^[K] i = i := iter_of_fixed (pfun p) i hroot K
          refine ⟨rfl, hb, by rw [hv], ?_⟩
          intro j hj Kj hfixj
          exact ⟨Kj, le_rfl, rfl, hfixj⟩

/-- `find_root` with fuel `n` on a well-formed forest: returns the root,
preserves well-formedness and every node's root. -/
theorem find_root_root (p : List Nat) (hwf : UFWF p) (i : Nat) (hi : i < p.length) :
    (find_root p.length p i).1.length = p.length ∧
    UFWF (find_root p.length p i).1 ∧
    (find_root p.length p i).2 = root p i ∧
    (∀ j, j < p.length → root (find_root p.length p i).1 j = root p j) := by
  obtain ⟨hb, hex⟩ := hwf
  obtain ⟨k0, hk0lt, hfix0⟩ := exists_fix_lt p hb i hi (hex i hi)
  obtain ⟨hlen, hb2, hr, hpres⟩ := find_root_spec k0 p.length p i hb hi (by omega) hfix0
  have hval0 : (pfun p)^[k0] i = root p i := (root_eq_of_reach p hb i hi k0 hfix0).symm
  have hb3 : ∀ x, x < (find_root p.length p i).1.length →
      pfun (find_root p.length p i).1 x < (find_root p.length p i).1.length := by
    intro x hx
    rw [hlen] at hx ⊢
    exact hb2 x hx
  have hroots : ∀ j, j < p.length → root (find_root p.length p i).1 j = root p j := by
    intro j hj
    obtain ⟨kj, hkreach, hkfix, _⟩ := root_reach p ⟨hb, hex⟩ j hj
    have hfixj : pfun p ((pfun p)^[kj] j) = (pfun p)^[kj] j := by
      rw [hkreach]
      exact hkfix
    obtain ⟨Kp, _, hreach2, hfix2⟩ := hpres j hj kj hfixj
    rw [hkreach] at hreach2 hfix2
    exact root_eq_of_reach (find_root p.length p i).1 hb3 j (by rw [hlen]; exact hj) Kp
      (by rw [hreach2]; exact hfix2) |>.trans hreach2

  refine ⟨hlen, ⟨hb3, ?_⟩, by rw [hr, hval0], hroots⟩
  intro x hx
  rw [hlen] at hx
  obtain ⟨kj, hkreach, hkfix, _⟩ := root_reach p ⟨hb, hex⟩ x hx
  obtain ⟨Kp, _, hreach2, hfix2⟩ := hpres x hx kj (by rw [hkreach]; exact hkfix)
  exact ⟨Kp, by rw [hreach2]; exact hfix2⟩

/-- Linking root `rb` under root `ra` merges exactly the two classes. -/
theorem link_root (p : List Nat) (hwf : UFWF p) (ra rb : Nat)
    (hra : ra < p.length) (hrb : rb < p.length)
    (hfra : pfun p ra = ra) (hfrb : pfun p rb = rb) (hne : ra ≠ rb) :
    UFWF (p.set rb ra) ∧ (p.set rb ra).length = p.length ∧
    (∀ j, j < p.length →
      root (p.set rb ra) j = if root p j = rb then ra else root p j) := by
  obtain ⟨hb, hex⟩ := hwf
  have hglen : (p.set rb ra).length = p.length := by rw [List.length_set]
  have hg_rb : pfun (p.set rb ra) rb = ra := pfun_set_self p rb ra hrb
  have hg_ne : ∀ x, x ≠ rb → pfun (p.set rb ra) x = pfun p x :=
    fun x hx => pfun_set_ne p rb ra x hx
  have hgb : ∀ x, x < (p.set rb ra).length →
      pfun (p.set rb ra) x < (p.set rb ra).length := by
    intro x hx
    rw [hglen] at hx ⊢
    by_cases hxrb : x = rb
    · subst hxrb
      rw [hg_rb]
      exact hra
    · rw [hg_ne x hxrb]
      exact hb x hx
  have claimA : ∀ K j, j < p.length → pfun p ((pfun p)^[K] j) = (pfun p)^[K] j →
      (pfun p)^[K] j ≠ rb →
      (pfun (p.set rb ra))^[K] j = (pfun p)^[K] j ∧
      pfun (p.set rb ra) ((pfun p)^[K] j) = (pfun p)^[K] j := by
    intro K
    induction K with
    | zero =>
        intro j _ hfix hnrb
        simp only [Function.iterate_zero_apply] at hfix hnrb ⊢
        exact ⟨trivial, by rw [hg_ne j hnrb]; exact hfix⟩
    | succ K ihK =>
        intro j hj hfix hnrb
        by_cases hjfix : pfun p j = j
        · have hv : (pfun p)^[K + 1] j = j := iter_of_fixed (pfun p) j hjfix (K + 1)
          rw [hv] at hnrb ⊢
          have hgj : pfun (p.set rb ra) j = j := by rw [hg_ne j hnrb]; exact hjfix
          exact ⟨iter_of_fixed _ j hgj (K + 1), hgj⟩
        · have hjrb : j ≠ rb := by
            intro hc
            subst hc
            exact hjfix hfrb
          have hfix2 : pfun p ((pfun p)^[K] (pfun p j)) = (pfun p)^[K] (pfun p j) := by
            rw [← Function.iterate_succ_apply]
            exact hfix
          have hnrb2 : (pfun p)^[K] (pfun p j) ≠ rb := by
            rw [← Function.iterate_succ_apply]
            exact hnrb
          obtain ⟨hr2, hf2⟩ := ihK (pfun p j) (hb j hj) hfix2 hnrb2
          constructor
          · rw [Function.iterate_succ_apply, hg_ne j hjrb, hr2,
              ← Function.iterate_succ_apply]
          · rw [Function.iterate_succ_apply]
            exact hf2
  have hgra : pfun (p.set rb ra) ra = ra := by
    rw [hg_ne ra hne]
    exact hfra
  have claimB : ∀ K j, j < p.length → (pfun p)^[K] j = rb →
      ∃ Kp, (pfun (p.set rb ra))^[Kp] j = ra := by
    intro K
    induction K with
    | zero =>
        intro j _ hv
        simp only [Function.iterate_zero_apply] at hv
        subst hv
        exact ⟨1, by simp only [Function.iterate_one]; exact hg_rb⟩
    | succ K ihK =>
        intro j hj hv
        by_cases hjfix : pfun p j = j
        · have : j = rb := by
            have := iter_of_fixed (pfun p) j hjfix (K + 1)
            rw [this] at hv
            exact hv
          subst this
          exact ⟨1, by simp only [Function.iterate_one]; exact hg_rb⟩
        · have hjrb : j ≠ rb := by
            intro hc
            subst hc
            exact hjfix hfrb
          obtain ⟨Kp, hKp⟩ := ihK (pfun p j) (hb j hj)
            (by rw [← Function.iterate_succ_apply]; exact hv)
          exact ⟨Kp + 1, by rw [Function.iterate_succ_apply, hg_ne j hjrb]; exact hKp⟩
  refine ⟨⟨hgb, ?_⟩, hglen, ?_⟩
  · intro x hx
    rw [hglen] at hx
    obtain ⟨kx, hkreach, hkfix, _⟩ := root_reach p ⟨hb, hex⟩ x hx
    by_cases hxrb : root p x = rb
    · obtain ⟨Kp, hKp⟩ := claimB kx x hx (by rw [hkreach]; exact hxrb)
      exact ⟨Kp, by rw [hKp]; exact hgra⟩
    · obtain ⟨hr2, hf2⟩ := claimA kx x hx (by rw [hkreach]; exact hkfix)
        (by rw [hkreach]; exact hxrb)
      exact ⟨kx, by rw [hr2, hkreach]; rw [hkreach] at hf2; exact hf2⟩
  · intro j hj
    obtain ⟨kj, hkreach, hkfix, _⟩ := root_reach p ⟨hb, hex⟩ j hj
    have hgb2 : ∀ x, x < (p.set rb ra).length →
        pfun (p.set rb ra) x < (p.set rb ra).length := hgb
    by_cases hjrb : root p j = rb
    · rw [if_pos hjrb]
      obtain ⟨Kp, hKp⟩ := claimB kj j hj (by rw [hkreach]; exact hjrb)
      have := root_eq_of_reach (p.set rb ra) hgb2
        j (by rw [hglen]; exact hj) Kp (by rw [hKp]; exact hgra)
      rw [this, hKp]
    · rw [if_neg hjrb]
      obtain ⟨hr2, hf2⟩ := claimA kj j hj (by rw [hkreach]; exact hkfix)
        (by rw [hkreach]; exact hjrb)
      rw [hkreach] at hr2 hf2
      have := root_eq_of_reach (p.set rb ra) hgb2
        j (by rw [hglen]; exact hj) kj (by rw [hr2]; exact hf2)
      rw [this, hr2]

/-- A node that is its own parent is its own root. -/
theorem root_of_fixed (p : List Nat) (i : Nat) (hfix : pfun p i = i) : root p i = i := by
  rw [root]
  cases p.length with
  | zero => rfl
  | succ m => simp only [rootAux, if_pos hfix]

/-- A node whose root is itself is its own parent fixpoint. -/
theorem fix_of_root (q : List Nat) (hq : UFWF q) (v : Nat) (hv : v < q.length)
    (hroot : root q v = v) : pfun q v = v := by
  obtain ⟨_, _, hfix, _⟩ := root_reach q hq v hv
  rw [hroot] at hfix
  exact hfix

/-- Merging the class of `w` into the class of `u` relates exactly the
previously-related pairs plus the cross pairs of the two classes. -/
theorem merged_root_iff (R : Nat → Nat) (u w x y : Nat) :
    ((if R x = w then u else R x) = (if R y = w then u else R y)) ↔
      (R x = R y ∨ (R x = u ∧ R y = w) ∨ (R x = w ∧ R y = u)) := by
  split_ifs with hx hy hy <;> omega

/-- `union` on a well-formed forest: the parent list keeps its length,
stays well formed, and the root partition merges exactly the classes of
`a` and `b`. -/
theorem union_spec (p r : List Nat) (hwf : UFWF p) (a b : Nat)
    (ha : a < p.length) (hbb : b < p.length) :
    (union p.length p r a b).1.length = p.length ∧
    UFWF (union p.length p r a b).1 ∧
    (∀ x y, x < p.length → y < p.length →
      (root (union p.length p r a b).1 x = root (union p.length p r a b).1 y ↔
        (root p x = root p y ∨
         (root p x = root p a ∧ root p y = root p b) ∨
         (root p x = root p b ∧ root p y = root p a)))) := by
  obtain ⟨h1len, h1wf, h1val, h1roots⟩ := find_root_root p hwf a ha
  have heq2 : find_root p.length (find_root p.length p a).1 b =
      find_root (find_root p.length p a).1.length (find_root p.length p a).1 b := by
    rw [h1len]
  obtain ⟨h2len0, h2wf0, h2val0, h2roots0⟩ :=
    find_root_root (find_root p.length p a).1 h1wf b (by rw [h1len]; exact hbb)
  rw [← heq2] at h2len0 h2wf0 h2val0 h2roots0
  simp only [union]
  set p1 := (find_root p.length p a).1 with hp1def
  set ra := (find_root p.length p a).2 with hradef
  set p2 := (find_root p.length p1 b).1 with hp2def
  set rb := (find_root p.length p1 b).2 with hrbdef
  have hlen2 : p2.length = p.length := h2len0.trans h1len
  have hroots2 : ∀ j, j < p.length → root p2 j = root p j := by
    intro j hj
    exact (h2roots0 j (by rw [h1len]; exact hj)).trans (h1roots j hj)
  obtain ⟨_, _, hfixa0, hralt0⟩ := root_reach p hwf a ha
  obtain ⟨_, _, hfixb0, hrblt0⟩ := root_reach p hwf b hbb
  have hra_lt : ra < p.length := by rw [h1val]; exact hralt0
  have hrb_lt : rb < p.length := by rw [h2val0, h1roots b hbb]; exact hrblt0
  have hvala : ra = root p a := h1val
  have hvalb : rb = root p b := h2val0.trans (h1roots b hbb)
  have hfix_ra : pfun p2 ra = ra := by
    apply fix_of_root p2 h2wf0 ra (by rw [hlen2]; exact hra_lt)
    rw [hroots2 ra hra_lt, hvala, root_of_fixed p (root p a) hfixa0]
  have hfix_rb : pfun p2 rb = rb := by
    apply fix_of_root p2 h2wf0 rb (by rw [hlen2]; exact hrb_lt)
    rw [hroots2 rb hrb_lt, hvalb, root_of_fixed p (root p b) hfixb0]
  by_cases hrarb : ra = rb
  · rw [if_pos hrarb]
    refine ⟨hlen2, h2wf0, ?_⟩
    intro x y hx hy
    rw [show root (p2, r).1 x = root p2 x from rfl, show root (p2, r).1 y = root p2 y from rfl,
      hroots2 x hx, hroots2 y hy]
    omega
  · rw [if_neg hrarb]
    by_cases hrank : r.getD ra 0 < r.getD rb 0
    · rw [if_pos hrank]
      obtain ⟨hwf3, hlen3, hroot3⟩ := link_root p2 h2wf0 rb ra
        (by rw [hlen2]; exact hrb_lt) (by rw [hlen2]; exact hra_lt)
        hfix_rb hfix_ra (fun h => hrarb h.symm)
      refine ⟨by rw [List.length_set]; exact hlen2, hwf3, ?_⟩
      intro x y hx hy
      have hshow : root ((p2.set ((rb, ra).2 : Nat) ((rb, ra).1 : Nat),
          if r.getD ((rb, ra).1 : Nat) 0 = r.getD ((rb, ra).2 : Nat) 0 then
            r.set ((rb, ra).1 : Nat) (r.getD ((rb, ra).1 : Nat) 0 + 1) else r).1) =
          root (p2.set ra rb) := rfl
      rw [hshow, hroot3 x (by rw [hlen2]; exact hx), hroot3 y (by rw [hlen2]; exact hy),
        hroots2 x hx, hroots2 y hy, merged_root_iff (root p) rb ra x y]
      omega
    · rw [if_neg hrank]
      obtain ⟨hwf3, hlen3, hroot3⟩ := link_root p2 h2wf0 ra rb
        (by rw [hlen2]; exact hra_lt) (by rw [hlen2]; exact hrb_lt)
        hfix_ra hfix_rb hrarb
      refine ⟨by rw [List.length_set]; exact hlen2, hwf3, ?_⟩
      intro x y hx hy
      have hshow : root ((p2.set ((ra, rb).2 : Nat) ((ra, rb).1 : Nat),
          if r.getD ((ra, rb).1 : Nat) 0 = r.getD ((ra, rb).2 : Nat) 0 then
            r.set ((ra, rb).1 : Nat) (r.getD ((ra, rb).1 : Nat) 0 + 1) else r).1) =
          root (p2.set rb ra) := rfl
      rw [hshow, hroot3 x (by rw [hlen2]; exact hx), hroot3 y (by rw [hlen2]; exact hy),
        hroots2 x hx, hroots2 y hy, merged_root_iff (root p) ra rb x y]
      omega

/-- In the freshly initialised forest `list(range(n))` every node is its
own parent. -/
theorem pfun_range (n x : Nat) (hx : x < n) : pfun (List.range n) x = x := by
  rw [pfun, List.getD_eq_getElem?_getD, List.getElem?_range hx]
  rfl

theorem UFWF_range (n : Nat) : UFWF (List.range n) := by
  constructor
  · intro i hi
    rw [List.length_range] at hi ⊢
    rw [pfun_range n i hi]
    exact hi
  · intro i hi
    rw [List.length_range] at hi
    refine ⟨0, ?_⟩
    simp only [Function.iterate_zero_apply]
    rw [pfun_range n i hi]

theorem root_range (n x : Nat) (hx : x < n) : root (List.range n) x = x :=
  root_of_fixed _ _ (pfun_range n x hx)

theorem eqvGen_elim {α : Type} {r : α → α → Prop} {P : α → α → Prop}
    (hrefl : ∀ x, P x x) (hsymm : ∀ x y, P x y → P y x)
    (htrans : ∀ x y z, P x y → P y z → P x z) (hr : ∀ x y, r x y → P x y) :
    ∀ {x y}, Relation.EqvGen r x y → P x y := by
  intro x y h
  induction h with
  | rel a b hab => exact hr a b hab
  | refl a => exact hrefl a
  | symm a b _ ih => exact hsymm a b ih
  | trans a b c _ _ ih1 ih2 => exact htrans a b c ih1 ih2

theorem eqvGen_mono {α : Type} {r s : α → α → Prop} (h : ∀ x y, r x y → s x y) :
    ∀ {x y}, Relation.EqvGen r x y → Relation.EqvGen s x y := by
  intro x y hxy
  induction hxy with
  | rel a b hab => exact Relation.EqvGen.rel a b (h a b hab)
  | refl a => exact Relation.EqvGen.refl a
  | symm a b _ ih => exact Relation.EqvGen.symm a b ih
  | trans a b c _ _ ih1 ih2 => exact Relation.EqvGen.trans a b c ih1 ih2

/-- The union loop computes exactly the equivalence closure of the
below-threshold edges: after the fold, two in-range indices share a root
iff they are connected. -/
theorem unionFold_spec (n : Nat) (d : Nat → Nat → ℚ) (t : ℚ) :
    ∀ (edges : List (Nat × Nat)), (∀ e ∈ edges, e.1 < n ∧ e.2 < n) →
      (unionFold n d t edges).1.length = n ∧ UFWF (unionFold n d t edges).1 ∧
      ∀ x y, x < n → y < n →
        (root (unionFold n d t edges).1 x = root (unionFold n d t edges).1 y ↔
          Relation.EqvGen (EdgeRel n d t edges) x y) := by
  intro edges
  induction edges using List.reverseRecOn with
  | nil =>
      intro _
      refine ⟨List.length_range n, UFWF_range n, ?_⟩
      intro x y hx hy
      rw [show (unionFold n d t []).1 = List.range n from rfl,
        root_range n x hx, root_range n y hy]
      constructor
      · intro h
        subst h
        exact Relation.EqvGen.refl x
      · intro h
        refine eqvGen_elim (P := fun u v => u = v) (fun u => rfl)
          (fun u v huv => huv.symm) (fun u v w h1 h2 => h1.trans h2) ?_ h
        rintro u v (⟨huv, _, _⟩ | hmem)
        · exact huv
        · simp only [List.filter_nil, List.not_mem_nil] at hmem
  | append_singleton es e ih =>
      intro hedges
      have hes : ∀ x ∈ es, x.1 < n ∧ x.2 < n :=
        fun x hx => hedges x (List.mem_append_left _ hx)
      have hein : e ∈ es ++ [e] := List.mem_append_right _ (List.mem_singleton.2 rfl)
      obtain ⟨he1, he2⟩ := hedges e hein
      obtain ⟨ihlen, ihwf, ihroot⟩ := ih hes
      have hsnoc : unionFold n d t (es ++ [e]) =
          (if d e.1 e.2 < t then
            union n (unionFold n d t es).1 (unionFold n d t es).2 e.1 e.2
           else unionFold n d t es) := by
        rw [unionFold, unionFold, List.foldl_append]
        rfl
      by_cases hd : d e.1 e.2 < t
      · rw [hsnoc, if_pos hd]
        have hfuel : union n (unionFold n d t es).1 (unionFold n d t es).2 e.1 e.2 =
            union (unionFold n d t es).1.length (unionFold n d t es).1
              (unionFold n d t es).2 e.1 e.2 := by rw [ihlen]
        obtain ⟨hUlen, hUwf, hUroot⟩ := union_spec (unionFold n d t es).1
          (unionFold n d t es).2 ihwf e.1 e.2 (by rw [ihlen]; exact he1)
          (by rw [ihlen]; exact he2)
        rw [hfuel]
        refine ⟨hUlen.trans ihlen, hUwf, ?_⟩
        intro x y hx hy
        rw [hUroot x y (by rw [ihlen]; exact hx) (by rw [ihlen]; exact hy)]
        have hmono : ∀ u v, EdgeRel n d t es u v → EdgeRel n d t (es ++ [e]) u v := by
          rintro u v (h | h)
          · exact Or.inl h
          · refine Or.inr ?_
            rw [List.filter_append]
            exact List.mem_append_left _ h
        have hedgeuv : Relation.EqvGen (EdgeRel n d t (es ++ [e])) e.1 e.2 := by
          refine Relation.EqvGen.rel _ _ (Or.inr ?_)
          rw [List.filter_append]
          refine List.mem_append_right _ ?_
          rw [List.mem_filter]
          exact ⟨List.mem_singleton.2 rfl, decide_eq_true hd⟩
        constructor
        · rintro (h | ⟨h1, h2⟩ | ⟨h1, h2⟩)
          · exact eqvGen_mono hmono ((ihroot x y hx hy).1 h)
          · exact Relation.EqvGen.trans _ _ _
              (eqvGen_mono hmono ((ihroot x e.1 hx he1).1 h1))
              (Relation.EqvGen.trans _ _ _ hedgeuv
                (Relation.EqvGen.symm _ _ (eqvGen_mono hmono ((ihroot y e.2 hy he2).1 h2))))
          · exact Relation.EqvGen.trans _ _ _
              (eqvGen_mono hmono ((ihroot x e.2 hx he2).1 h1))
              (Relation.EqvGen.trans _ _ _ (Relation.EqvGen.symm _ _ hedgeuv)
                (Relation.EqvGen.symm _ _ (eqvGen_mono hmono ((ihroot y e.1 hy he1).1 h2))))
        · intro h
          set P := (unionFold n d t es).1 with hPdef
          set U := (union P.length P (unionFold n d t es).2 e.1 e.2).1 with hUdef
          have hres := eqvGen_elim
            (P := fun u v => u = v ∨ (u < n ∧ v < n ∧ root U u = root U v))
            (fun u => Or.inl rfl)
            (fun u v huv => by
              rcases huv with h0 | ⟨h1, h2, h3⟩
              · exact Or.inl h0.symm
              · exact Or.inr ⟨h2, h1, h3.symm⟩)
            (fun u v w huv hvw => by
              rcases huv with h0 | ⟨h1, h2, h3⟩
              · rw [h0]
                exact hvw
              · rcases hvw with h0 | ⟨h4, h5, h6⟩
                · rw [← h0]
                  exact Or.inr ⟨h1, h2, h3⟩
                · exact Or.inr ⟨h1, h5, h3.trans h6⟩)
            (fun u v huv => by
              rcases huv with ⟨huv, hu, hv⟩ | hmem
              · exact Or.inl huv
              · rw [List.filter_append] at hmem
                rcases List.mem_append.1 hmem with hm | hm
                · have humem : (u, v) ∈ es := List.mem_of_mem_filter hm
                  obtain ⟨hu, hv⟩ := hes (u, v) humem
                  refine Or.inr ⟨hu, hv, ?_⟩
                  refine (hUroot u v (by rw [ihlen]; exact hu)
                    (by rw [ihlen]; exact hv)).2 (Or.inl ?_)
                  refine (ihroot u v hu hv).2 ?_
                  exact Relation.EqvGen.rel u v (Or.inr hm)
                · have := List.mem_of_mem_filter hm
                  rw [List.mem_singleton] at this
                  have hu : u = e.1 := congrArg Prod.fst this
                  have hv : v = e.2 := congrArg Prod.snd this
                  subst hu hv
                  refine Or.inr ⟨he1, he2, ?_⟩
                  exact (hUroot e.1 e.2 (by rw [ihlen]; exact he1)
                    (by rw [ihlen]; exact he2)).2 (Or.inr (Or.inl ⟨rfl, rfl⟩)))
            h
          rcases hres with h0 | ⟨_, _, h3⟩
          · exact Or.inl (by rw [h0])
          · exact (hUroot x y (by rw [ihlen]; exact hx) (by rw [ihlen]; exact hy)).1 h3
      · rw [hsnoc, if_neg hd]
        refine ⟨ihlen, ihwf, ?_⟩
        intro x y hx hy
        rw [ihroot x y hx hy]
        have hfil : (es ++ [e]).filter (fun ab => decide (d ab.1 ab.2 < t)) =
            es.filter (fun ab => decide (d ab.1 ab.2 < t)) := by
          rw [List.filter_append]
          simp [List.filter_cons, hd]
        have herel : ∀ u v, EdgeRel n d t (es ++ [e]) u v ↔ EdgeRel n d t es u v := by
          intro u v
          unfold EdgeRel
          rw [hfil]
        constructor
        · exact eqvGen_mono (fun u v huv => (herel u v).2 huv)
        · exact eqvGen_mono (fun u v huv => (herel u v).1 huv)

theorem pairsList_bounds (n : Nat) : ∀ e ∈ pairsList n, e.1 < n ∧ e.2 < n := by
  intro e he
  rw [pairsList, List.mem_flatMap] at he
  obtain ⟨a, ha, he2⟩ := he
  rw [List.mem_map] at he2
  obtain ⟨b, hbm, rfl⟩ := he2
  exact ⟨List.mem_range.1 ha, List.mem_range.1 (List.mem_of_mem_drop hbm)⟩

/-- `SameCluster` is the equivalence closure of the unioned edges. -/
theorem sameCluster_iff_eqvGen (n : Nat) (d : Nat → Nat → ℚ) (t : ℚ) (x y : Nat) :
    SameCluster n d t x y ↔ Relation.EqvGen (EdgeRel n d t (pairsList n)) x y := by
  constructor
  · intro h
    exact eqvGen_mono (fun u v huv => huv) h
  · intro h
    exact eqvGen_mono (fun u v huv => huv) h

/-- In-range members of the same cluster share a root after the union
loop, and conversely. -/
theorem unionFold_root_iff (n : Nat) (d : Nat → Nat → ℚ) (t : ℚ) :
    (unionFold n d t (pairsList n)).1.length = n ∧
    UFWF (unionFold n d t (pairsList n)).1 ∧
    ∀ x y, x < n → y < n →
      (root (unionFold n d t (pairsList n)).1 x = root (unionFold n d t (pairsList n)).1 y ↔
        SameCluster n d t x y) := by
  obtain ⟨h1, h2, h3⟩ := unionFold_spec n d t (pairsList n) (pairsList_bounds n)
  refine ⟨h1, h2, ?_⟩
  intro x y hx hy
  rw [h3 x y hx hy, ← sameCluster_iff_eqvGen]

theorem buildClusters_eq_clusterFold (n : Nat) (pstar : List Nat) :
    buildClusters n n pstar = clusterFold n pstar n := rfl

/-- One `dictAppendNat` step preserves the grouping invariant: keys are
the distinct roots seen so far, each entry collects exactly the indices
with that root, in order. -/
theorem dictAppendNat_spec (R : Nat → Nat) (m : Nat) (cm : List (Nat × List Nat))
    (h1 : (cm.map Prod.fst).Nodup)
    (h2 : ∀ pr ∈ cm, pr.1 ∈ (List.range m).map R ∧
        pr.2 = (List.range m).filter (fun j => R j = pr.1))
    (h3 : ∀ j, j < m → R j ∈ cm.map Prod.fst) :
    ((dictAppendNat cm (R m) m).map Prod.fst).Nodup ∧
    (∀ pr ∈ dictAppendNat cm (R m) m, pr.1 ∈ (List.range (m + 1)).map R ∧
        pr.2 = (List.range (m + 1)).filter (fun j => R j = pr.1)) ∧
    (∀ j, j < m + 1 → R j ∈ (dictAppendNat cm (R m) m).map Prod.fst) := by
  have hrange : List.range (m + 1) = List.range m ++ [m] := List.range_succ m
  by_cases hk : (cm.map Prod.fst).contains (R m) = true
  · have hkeys : (dictAppendNat cm (R m) m).map Prod.fst = cm.map Prod.fst := by
      rw [dictAppendNat, if_pos hk, List.map_map]
      refine List.map_eq_map_iff.mpr ?_
      intro pr hpr
      by_cases hpr1 : pr.1 = R m
      · rw [Function.comp_apply, if_pos hpr1]
      · rw [Function.comp_apply, if_neg hpr1]
    refine ⟨by rw [hkeys]; exact h1, ?_, ?_⟩
    · intro pr hpr
      rw [dictAppendNat, if_pos hk, List.mem_map] at hpr
      obtain ⟨q, hq, hqe⟩ := hpr
      obtain ⟨hq1, hq2⟩ := h2 q hq
      by_cases hqk : q.1 = R m
      · rw [if_pos hqk] at hqe
        subst hqe
        refine ⟨by rw [hrange, List.map_append]; exact List.mem_append_left _ hq1, ?_⟩
        rw [hrange, List.filter_append, ← hq2]
        have hone : [m].filter (fun j => decide (R j = q.1)) = [m] := by
          rw [List.filter_cons, if_pos (by rw [decide_eq_true_eq]; exact hqk.symm)]
          rfl
        rw [hone]
      · rw [if_neg hqk] at hqe
        subst hqe
        refine ⟨by rw [hrange, List.map_append]; exact List.mem_append_left _ hq1, ?_⟩
        rw [hrange, List.filter_append, ← hq2]
        have hzero : [m].filter (fun j => decide (R j = q.1)) = [] := by
          rw [List.filter_cons, if_neg (by rw [decide_eq_true_eq]; exact fun h => hqk h.symm)]
          rfl
        rw [hzero, List.append_nil]
    · intro j hj
      rw [hkeys]
      rcases Nat.lt_succ_iff_lt_or_eq.1 hj with hj2 | hj2
      · exact h3 j hj2
      · subst hj2
        exact List.mem_of_elem_eq_true hk
  · have hknotmem : R m ∉ cm.map Prod.fst := by
      intro hmem
      exact hk (List.elem_eq_true_of_mem hmem)
    have happ : dictAppendNat cm (R m) m = cm ++ [(R m, [m])] := by
      rw [dictAppendNat, if_neg hk]
    have hkeys2 : (dictAppendNat cm (R m) m).map Prod.fst = cm.map Prod.fst ++ [R m] := by
      rw [happ, List.map_append]
      rfl
    refine ⟨?_, ?_, ?_⟩
    · rw [hkeys2]
      refine List.Nodup.append h1 (List.nodup_singleton _) ?_
      intro a hamem hacon
      rw [List.mem_singleton] at hacon
      subst hacon
      exact hknotmem hamem
    · intro pr hpr
      rw [happ] at hpr
      rcases List.mem_append.1 hpr with hm | hm
      · obtain ⟨hq1, hq2⟩ := h2 pr hm
        refine ⟨by rw [hrange, List.map_append]; exact List.mem_append_left _ hq1, ?_⟩
        rw [hrange, List.filter_append, ← hq2]
        have hne : R m ≠ pr.1 := by
          intro hcon
          exact hknotmem (hcon ▸ List.mem_map_of_mem Prod.fst hm)
        have hzero : [m].filter (fun j => decide (R j = pr.1)) = [] := by
          rw [List.filter_cons, if_neg (by rw [decide_eq_true_eq]; exact hne)]
          rfl
        rw [hzero, List.append_nil]
      · rw [List.mem_singleton] at hm
        subst hm
        refine ⟨?_, ?_⟩
        · rw [List.mem_map]
          exact ⟨m, List.mem_range.2 (Nat.lt_succ_self m), rfl⟩
        · rw [hrange, List.filter_append]
          have hzero : (List.range m).filter (fun j => decide (R j = (R m, [m]).1)) = [] := by
            refine List.filter_eq_nil_iff.mpr ?_
            intro j hj
            rw [decide_eq_true_eq]
            intro hcon
            have hcon2 : R j = R m := hcon
            exact hknotmem (hcon2 ▸ h3 j (List.mem_range.1 hj))
          have hone : [m].filter (fun j => decide (R j = (R m, [m]).1)) = [m] := by
            rw [List.filter_cons, if_pos (show decide (R m = (R m, [m]).1) = true from
              decide_eq_true rfl)]
            rfl
          rw [hzero, hone, List.nil_append]
    · intro j hj
      rw [hkeys2]
      rcases Nat.lt_succ_iff_lt_or_eq.1 hj with hj2 | hj2
      · exact List.mem_append_left _ (h3 j hj2)
      · subst hj2
        exact List.mem_append_right _ (List.mem_singleton.2 rfl)

/-- Invariant of the cluster-collection fold: the parent forest keeps its
roots, and the dictionary groups the processed indices by root. -/
theorem clusterFold_inv (n : Nat) (pstar : List Nat) (hlen : pstar.length = n)
    (hwf : UFWF pstar) :
    ∀ m, m ≤ n →
      (clusterFold n pstar m).1.length = n ∧
      UFWF (clusterFold n pstar m).1 ∧
      (∀ j, j < n → root (clusterFold n pstar m).1 j = root pstar j) ∧
      ((clusterFold n pstar m).2.map Prod.fst).Nodup ∧
      (∀ pr ∈ (clusterFold n pstar m).2, pr.1 ∈ (List.range m).map (root pstar) ∧
          pr.2 = (List.range m).filter (fun j => root pstar j = pr.1)) ∧
      (∀ j, j < m → root pstar j ∈ (clusterFold n pstar m).2.map Prod.fst) := by
  intro m
  induction m with
  | zero =>
      intro _
      refine ⟨hlen, hwf, fun j _ => rfl, List.nodup_nil, ?_, ?_⟩
      · intro pr hpr
        exact absurd hpr (List.not_mem_nil pr)
      · intro j hj
        omega
  | succ m ih =>
      intro hm
      obtain ⟨ihlen, ihwf, ihroot, ihnodup, ihentries, ihcover⟩ := ih (by omega)
      have hstep : clusterFold n pstar (m + 1) =
          ((find_root n (clusterFold n pstar m).1 m).1,
           dictAppendNat (clusterFold n pstar m).2
             (find_root n (clusterFold n pstar m).1 m).2 m) := by
        unfold clusterFold
        rw [List.range_succ, List.foldl_append]
        rfl
      have hfuel : find_root n (clusterFold n pstar m).1 m =
          find_root (clusterFold n pstar m).1.length (clusterFold n pstar m).1 m := by
        rw [ihlen]
      obtain ⟨hflen, hfwf, hfval, hfroots⟩ :=
        find_root_root (clusterFold n pstar m).1 ihwf m (by rw [ihlen]; omega)
      rw [← hfuel] at hflen hfwf hfval hfroots
      have hkey : (find_root n (clusterFold n pstar m).1 m).2 = root pstar m := by
        rw [hfval, ihroot m (by omega)]
      obtain ⟨hd1, hd2, hd3⟩ := dictAppendNat_spec (root pstar) m
        (clusterFold n pstar m).2 ihnodup ihentries ihcover
      refine ⟨?_, ?_, ?_, ?_, ?_, ?_⟩
      · rw [hstep]
        exact hflen.trans ihlen
      · rw [hstep]
        exact hfwf
      · intro j hj
        rw [hstep]
        exact (hfroots j (by rw [ihlen]; exact hj)).trans (ihroot j hj)
      · rw [hstep]
        rw [show (((find_root n (clusterFold n pstar m).1 m).1,
            dictAppendNat (clusterFold n pstar m).2
              (find_root n (clusterFold n pstar m).1 m).2 m)).2 =
          dictAppendNat (clusterFold n pstar m).2
            (find_root n (clusterFold n pstar m).1 m).2 m from rfl, hkey]
        exact hd1
      · intro pr hpr
        rw [hstep] at hpr
        rw [show (((find_root n (clusterFold n pstar m).1 m).1,
            dictAppendNat (clusterFold n pstar m).2
              (find_root n (clusterFold n pstar m).1 m).2 m)).2 =
          dictAppendNat (clusterFold n pstar m).2
            (find_root n (clusterFold n pstar m).1 m).2 m from rfl, hkey] at hpr
        exact hd2 pr hpr
      · intro j hj
        rw [hstep]
        rw [show (((find_root n (clusterFold n pstar m).1 m).1,
            dictAppendNat (clusterFold n pstar m).2
              (find_root n (clusterFold n pstar m).1 m).2 m)).2 =
          dictAppendNat (clusterFold n pstar m).2
            (find_root n (clusterFold n pstar m).1 m).2 m from rfl, hkey]
        exact hd3 j hj

/-- `clustersAt` produces exactly the proximity connected components:
each returned cluster is nonempty, duplicate-free, in range; every index
lies in one; and a cluster containing `x` contains precisely the indices
in `x`'s component. -/
theorem clustersAt_spec (areas : List ℚ) (d : Nat → Nat → ℚ) (t : ℚ) :
    (∀ c ∈ clustersAt areas d t, c ≠ [] ∧ c.Nodup ∧ ∀ x ∈ c, x < areas.length) ∧
    (∀ x, x < areas.length → ∃ c ∈ clustersAt areas d t, x ∈ c) ∧
    (∀ c ∈ clustersAt areas d t, ∀ x ∈ c, ∀ y,
        (y ∈ c ↔ y < areas.length ∧ SameCluster areas.length d t x y)) := by
  obtain ⟨hplen, hpwf, hproot⟩ := unionFold_root_iff areas.length d t
  obtain ⟨_, _, _, hnodup, hentries, hcover⟩ :=
    clusterFold_inv areas.length (unionFold areas.length d t (pairsList areas.length)).1
      hplen hpwf areas.length le_rfl
  have hCrw : clustersAt areas d t =
      ((clusterFold areas.length
          (unionFold areas.length d t (pairsList areas.length)).1 areas.length).2).map
        Prod.snd := rfl
  set R := root (unionFold areas.length d t (pairsList areas.length)).1 with hRdef
  have hmem_entry : ∀ c ∈ clustersAt areas d t,
      ∃ pr ∈ (clusterFold areas.length
          (unionFold areas.length d t (pairsList areas.length)).1 areas.length).2,
        c = pr.2 ∧ pr.1 ∈ (List.range areas.length).map R ∧
        c = (List.range areas.length).filter (fun j => R j = pr.1) := by
    intro c hc
    rw [hCrw, List.mem_map] at hc
    obtain ⟨pr, hpr, hpre⟩ := hc
    obtain ⟨hk, hv⟩ := hentries pr hpr
    exact ⟨pr, hpr, hpre.symm, hk, by rw [← hpre]; exact hv⟩
  have hmem_c : ∀ (r : Nat) (y : Nat),
      (y ∈ (List.range areas.length).filter (fun j => R j = r) ↔
        y < areas.length ∧ R y = r) := by
    intro r y
    rw [List.mem_filter, List.mem_range, decide_eq_true_eq]
  refine ⟨?_, ?_, ?_⟩
  · intro c hc
    obtain ⟨pr, hpr, hce, hk, hcf⟩ := hmem_entry c hc
    refine ⟨?_, ?_, ?_⟩
    · rw [List.mem_map] at hk
      obtain ⟨j0, hj0, hj0e⟩ := hk
      intro hnil
      have : j0 ∈ c := by
        rw [hcf, hmem_c]
        exact ⟨List.mem_range.1 hj0, hj0e⟩
      rw [hnil] at this
      exact List.not_mem_nil j0 this
    · rw [hcf]
      exact (List.nodup_range areas.length).filter _
    · intro x hx
      rw [hcf, hmem_c] at hx
      exact hx.1
  · intro x hx
    have hkeymem := hcover x hx
    rw [List.mem_map] at hkeymem
    obtain ⟨pr, hpr, hpre⟩ := hkeymem
    refine ⟨pr.2, by rw [hCrw]; exact List.mem_map_of_mem Prod.snd hpr, ?_⟩
    rw [(hentries pr hpr).2, hmem_c]
    exact ⟨hx, hpre.symm⟩
  · intro c hc x hxc y
    obtain ⟨pr, hpr, hce, hk, hcf⟩ := hmem_entry c hc
    have hxr : x < areas.length ∧ R x = pr.1 := by
      rw [hcf, hmem_c] at hxc
      exact hxc
    rw [hcf, hmem_c]
    constructor
    · rintro ⟨hy, hyr⟩
      refine ⟨hy, ?_⟩
      rw [← hproot x y hxr.1 hy]
      rw [hxr.2, hyr]
    · rintro ⟨hy, hsame⟩
      refine ⟨hy, ?_⟩
      rw [← (hproot x y hxr.1 hy).2 hsame]
      exact hxr.2

/-- `max(clusters.values(), key=area)`: the result is one of the clusters
and has maximal area (first maximum wins). -/
theorem maxByArea_spec (areas : List ℚ) (cs : List (List Nat)) (hne : cs ≠ []) :
    maxByArea areas cs ∈ cs ∧
      ∀ c ∈ cs, clusterArea areas c ≤ clusterArea areas (maxByArea areas cs) := by
  have key : ∀ (l : List (List Nat)) (b : List Nat),
      (l.foldl (fun best x =>
        if clusterArea areas x > clusterArea areas best then x else best) b ∈ b :: l) ∧
      (∀ c ∈ b :: l, clusterArea areas c ≤ clusterArea areas
        (l.foldl (fun best x =>
          if clusterArea areas x > clusterArea areas best then x else best) b)) := by
    intro l
    induction l with
    | nil =>
        intro b
        refine ⟨List.mem_singleton.2 rfl, ?_⟩
        intro c hc
        rw [List.mem_singleton] at hc
        subst hc
        exact le_refl _
    | cons a l ihl =>
        intro b
        obtain ⟨ihm, ihb⟩ := ihl (if clusterArea areas a > clusterArea areas b then a else b)
        have hstepmem : (if clusterArea areas a > clusterArea areas b then a else b) ∈
            b :: a :: l := by
          by_cases hab : clusterArea areas a > clusterArea areas b
          · rw [if_pos hab]
            exact List.mem_cons_of_mem _ (List.mem_cons_self a l)
          · rw [if_neg hab]
            exact List.mem_cons_self b _
        constructor
        · rcases List.mem_cons.1 ihm with hh | hh
          · rw [List.foldl_cons, hh]
            exact hstepmem
          · rw [List.foldl_cons]
            exact List.mem_cons_of_mem _ (List.mem_cons_of_mem _ hh)
        · intro c hc
          rw [List.foldl_cons]
          rcases List.mem_cons.1 hc with hcb | hcal
          · subst hcb
            refine le_trans ?_ (ihb _ (List.mem_cons_self _ _))
            by_cases hab : clusterArea areas a > clusterArea areas c
            · rw [if_pos hab]
              exact le_of_lt hab
            · rw [if_neg hab]
          · rcases List.mem_cons.1 hcal with hca | hcl
            · subst hca
              refine le_trans ?_ (ihb _ (List.mem_cons_self _ _))
              by_cases hab : clusterArea areas c > clusterArea areas b
              · rw [if_pos hab]
              · rw [if_neg hab]
                exact le_of_not_lt hab
            · exact ihb c (List.mem_cons_of_mem _ hcl)
  cases cs with
  | nil => exact absurd rfl hne
  | cons c0 cs' =>
      obtain ⟨hm, hb⟩ := key cs' c0
      exact ⟨hm, hb⟩

/-- Polygon areas read off the (clamped) area list are nonnegative. -/
theorem areasD_nonneg (areas : List ℚ) (hpos : ∀ a ∈ areas, 0 ≤ a) (j : Nat) :
    0 ≤ areas.getD j 0 := by
  by_cases hj : j < areas.length
  · rw [List.getD_eq_getElem areas 0 hj]
    exact hpos _ (List.getElem_mem hj)
  · rw [List.getD_eq_default areas 0 (by omega)]

/-- Cluster area is monotone under inclusion of duplicate-free clusters. -/
theorem clusterArea_le_of_subset (areas : List ℚ) (hpos : ∀ a ∈ areas, 0 ≤ a)
    (c1 c2 : List Nat) (h1 : c1.Nodup) (h2 : c2.Nodup) (hsub : ∀ x ∈ c1, x ∈ c2) :
    clusterArea areas c1 ≤ clusterArea areas c2 := by
  rw [clusterArea, clusterArea, ← List.sum_toFinset _ h1, ← List.sum_toFinset _ h2]
  refine Finset.sum_le_sum_of_subset_of_nonneg ?_ ?_
  · intro x hx
    rw [List.mem_toFinset] at hx ⊢
    exact hsub x hx
  · intro i _ _
    exact areasD_nonneg areas hpos i

/-- Growing the threshold only merges clusters: connectivity is monotone. -/
theorem sameCluster_mono (n : Nat) (d : Nat → Nat → ℚ) (t1 t2 : ℚ) (h : t1 ≤ t2)
    (x y : Nat) : SameCluster n d t1 x y → SameCluster n d t2 x y := by
  intro hxy
  refine eqvGen_mono ?_ hxy
  rintro u v (huv | huv)
  · exact Or.inl huv
  · refine Or.inr ?_
    rw [List.mem_filter] at huv ⊢
    refine ⟨huv.1, ?_⟩
    rw [decide_eq_true_eq] at huv ⊢
    exact lt_of_lt_of_le huv.2 h

/-- The escalation loop: the first threshold with sufficient coverage
wins; with none, the last threshold's candidate is accepted; in every
case the reported threshold is the one that produced the cluster. -/
theorem cluster_dominant_spec (areas : List ℚ) (d : Nat → Nat → ℚ) :
    (cluster_dominant areas d).1 = dominantAt areas d (cluster_dominant areas d).2 ∧
    (cluster_dominant areas d).2 ∈ CLUSTER_THRESHOLDS ∧
    (match CLUSTER_THRESHOLDS.find?
        (fun t => MIN_CLUSTER_COVERAGE ≤ coverageAt areas d t) with
     | some tstar => cluster_dominant areas d = (dominantAt areas d tstar, tstar)
     | none => cluster_dominant areas d =
         (dominantAt areas d (CLUSTER_THRESHOLDS.getLastD 0),
          CLUSTER_THRESHOLDS.getLastD 0)) := by
  have hstep0 : cluster_dominant areas d =
      (if coverageAt areas d 12 ≥ MIN_CLUSTER_COVERAGE then (dominantAt areas d 12, 12)
       else thresholdLoop areas d [18, 25] (dominantAt areas d 12, 12)) := rfl
  have hstep1 : thresholdLoop areas d [18, 25] (dominantAt areas d 12, 12) =
      (if coverageAt areas d 18 ≥ MIN_CLUSTER_COVERAGE then (dominantAt areas d 18, 18)
       else thresholdLoop areas d [25] (dominantAt areas d 18, 18)) := rfl
  have hstep2 : thresholdLoop areas d [25] (dominantAt areas d 18, 18) =
      (if coverageAt areas d 25 ≥ MIN_CLUSTER_COVERAGE then (dominantAt areas d 25, 25)
       else (dominantAt areas d 25, 25)) := rfl
  have hstep2' : thresholdLoop areas d [25] (dominantAt areas d 18, 18) =
      (dominantAt areas d 25, 25) := by
    rw [hstep2]
    by_cases h25 : coverageAt areas d 25 ≥ MIN_CLUSTER_COVERAGE
    · rw [if_pos h25]
    · rw [if_neg h25]
  have hTrw : CLUSTER_THRESHOLDS = [(12 : ℚ), 18, 25] := rfl
  by_cases h12 : MIN_CLUSTER_COVERAGE ≤ coverageAt areas d 12
  · have hcd : cluster_dominant areas d = (dominantAt areas d 12, 12) := by
      rw [hstep0, if_pos h12]
    have hfind : CLUSTER_THRESHOLDS.find?
        (fun t => MIN_CLUSTER_COVERAGE ≤ coverageAt areas d t) = some 12 := by
      rw [hTrw]
      exact List.find?_cons_of_pos _ (decide_eq_true h12)
    refine ⟨by rw [hcd], by rw [hcd, hTrw]; exact List.mem_cons_self _ _, ?_⟩
    rw [hfind]
    exact hcd
  · by_cases h18 : MIN_CLUSTER_COVERAGE ≤ coverageAt areas d 18
    · have hcd : cluster_dominant areas d = (dominantAt areas d 18, 18) := by
        rw [hstep0, if_neg h12, hstep1, if_pos h18]
      have hfind : CLUSTER_THRESHOLDS.find?
          (fun t => MIN_CLUSTER_COVERAGE ≤ coverageAt areas d t) = some 18 := by
        rw [hTrw, List.find?_cons_of_neg _ (by simp only [decide_eq_true_eq]; exact h12)]
        exact List.find?_cons_of_pos _ (decide_eq_true h18)
      refine ⟨by rw [hcd], ?_, ?_⟩
      · rw [hcd, hTrw]
        exact List.mem_cons_of_mem _ (List.mem_cons_self _ _)
      · rw [hfind]
        exact hcd
    · have hcd : cluster_dominant areas d = (dominantAt areas d 25, 25) := by
        rw [hstep0, if_neg h12, hstep1, if_neg h18, hstep2']
      have hmem25 : (25 : ℚ) ∈ CLUSTER_THRESHOLDS := by
        rw [hTrw]
        exact List.mem_cons_of_mem _ (List.mem_cons_of_mem _ (List.mem_cons_self _ _))
      by_cases h25 : MIN_CLUSTER_COVERAGE ≤ coverageAt areas d 25
      · have hfind : CLUSTER_THRESHOLDS.find?
            (fun t => MIN_CLUSTER_COVERAGE ≤ coverageAt areas d t) = some 25 := by
          rw [hTrw, List.find?_cons_of_neg _ (by simp only [decide_eq_true_eq]; exact h12),
            List.find?_cons_of_neg _ (by simp only [decide_eq_true_eq]; exact h18)]
          exact List.find?_cons_of_pos _ (decide_eq_true h25)
        refine ⟨by rw [hcd], by rw [hcd]; exact hmem25, ?_⟩
        rw [hfind]
        exact hcd
      · have hfind : CLUSTER_THRESHOLDS.find?
            (fun t => MIN_CLUSTER_COVERAGE ≤ coverageAt areas d t) = none := by
          rw [hTrw, List.find?_cons_of_neg _ (by simp only [decide_eq_true_eq]; exact h12),
            List.find?_cons_of_neg _ (by simp only [decide_eq_true_eq]; exact h18),
            List.find?_cons_of_neg _ (by simp only [decide_eq_true_eq]; exact h25)]
          rfl
        refine ⟨by rw [hcd], by rw [hcd]; exact hmem25, ?_⟩
        rw [hfind]
        exact hcd

theorem regular_frames_length (inp : ExpandInput) (i a : Nat) :
    (regular_frames inp i a).length = regularCount inp i := by
  rw [regular_frames, regularCount, List.length_map, List.length_range]

theorem hold_frames_length (inp : ExpandInput) (i a : Nat) :
    (hold_frames_at inp i a).length = inp.hold_extra i := by
  rw [hold_frames_at, List.length_map, List.length_range]

theorem regular_frames_anim (inp : ExpandInput) (i a : Nat) :
    (regular_frames inp i a).map Frame.anim_frame =
      (List.range (regularCount inp i)).map (a + ·) := by
  rw [regular_frames, regularCount, List.map_map]
  rfl

theorem hold_frames_anim (inp : ExpandInput) (i a : Nat) :
    (hold_frames_at inp i a).map Frame.anim_frame =
      (List.range (inp.hold_extra i)).map (a + ·) := by
  rw [hold_frames_at, List.map_map]
  rfl

theorem regular_frames_geo (inp : ExpandInput) (i a : Nat) :
    (regular_frames inp i a).map Frame.geo_frame_idx =
      List.replicate (regularCount inp i) i := by
  rw [List.eq_replicate_iff]
  constructor
  · rw [List.length_map, regular_frames_length]
  · intro b hb
    rw [List.mem_map] at hb
    obtain ⟨f, hf, rfl⟩ := hb
    rw [regular_frames, List.mem_map] at hf
    obtain ⟨sub, _, rfl⟩ := hf
    rfl

theorem hold_frames_geo (inp : ExpandInput) (i a : Nat) :
    (hold_frames_at inp i a).map Frame.geo_frame_idx =
      List.replicate (inp.hold_extra i) i := by
  rw [List.eq_replicate_iff]
  constructor
  · rw [List.length_map, hold_frames_length]
  · intro b hb
    rw [List.mem_map] at hb
    obtain ⟨f, hf, rfl⟩ := hb
    rw [hold_frames_at, List.mem_map] at hf
    obtain ⟨sub, _, rfl⟩ := hf
    rfl

theorem count_replicate_nat (n i j : Nat) :
    (List.replicate n i).count j = if j = i then n else 0 := by
  rw [List.count_replicate]
  simp only [beq_iff_eq]
  by_cases h : i = j
  · rw [if_pos h, if_pos h.symm]
  · rw [if_neg h, if_neg (fun hc => h hc.symm)]

theorem pairwise_le_replicate (n i : Nat) :
    (List.replicate n i).Pairwise (fun a b : Nat => a ≤ b) := by
  induction n with
  | zero => simp
  | succ n ih =>
      rw [List.replicate_succ, List.pairwise_cons]
      exact ⟨fun b hb => le_of_eq (List.eq_of_mem_replicate hb).symm, ih⟩

theorem range_map_add_append (a n h : Nat) :
    (List.range n).map (a + ·) ++ (List.range h).map (a + n + ·) =
      (List.range (n + h)).map (a + ·) := by
  rw [List.range_add, List.map_append, List.map_map]
  congr 1
  apply List.map_congr_left
  intro x _
  show a + n + x = a + (n + x)
  omega

/-- Invariant of the frame-expansion fold after processing the first `m`
timesteps: the animation counter equals the number of emitted frames,
`anim_frame` fields enumerate `0, 1, 2, …`, `geo_frame_idx` values are
below `m` and nondecreasing, and each timestep `j < m` accounts for
exactly `regularCount j + hold_extra j` frames. -/
theorem expand_invariant (inp : ExpandInput) : ∀ (m : Nat),
    (((List.range m).foldl (expandStep inp) ([], 0)).2 =
      (((List.range m).foldl (expandStep inp) ([], 0)).1).length) ∧
    ((((List.range m).foldl (expandStep inp) ([], 0)).1).map Frame.anim_frame =
      List.range ((((List.range m).foldl (expandStep inp) ([], 0)).1).length)) ∧
    (∀ f ∈ (((List.range m).foldl (expandStep inp) ([], 0)).1), f.geo_frame_idx < m) ∧
    (((((List.range m).foldl (expandStep inp) ([], 0)).1).map Frame.geo_frame_idx).Pairwise
      (· ≤ ·)) ∧
    (∀ j, ((((List.range m).foldl (expandStep inp) ([], 0)).1).map Frame.geo_frame_idx).count j =
      if j < m then regularCount inp j + inp.hold_extra j else 0) := by
  intro m
  induction m with
  | zero => refine ⟨rfl, rfl, by simp, by simp, by simp⟩
  | succ m ih =>
      obtain ⟨ih1, ih2, ih3, ih4, ih5⟩ := ih
      rw [List.range_succ, List.foldl_append, List.foldl_cons, List.foldl_nil]
      set st := (List.range m).foldl (expandStep inp) ([], 0) with hst
      rw [show expandStep inp st m =
          (st.1 ++ regular_frames inp m st.2 ++
            hold_frames_at inp m (st.2 + (regular_frames inp m st.2).length),
           st.2 + (regular_frames inp m st.2).length +
            (hold_frames_at inp m (st.2 + (regular_frames inp m st.2).length)).length) from rfl]
      rw [ih1]
      have hrl : (regular_frames inp m st.1.length).length = regularCount inp m :=
        regular_frames_length inp m st.1.length
      refine ⟨?_, ?_, ?_, ?_, ?_⟩
      · simp only [List.length_append]
      · simp only [List.map_append]
        rw [ih2, regular_frames_anim, hold_frames_anim, hrl, List.append_assoc,
          range_map_add_append, ← List.range_add]
        simp only [List.length_append, hrl, hold_frames_length]
        congr 1
        omega
      · intro f hf
        simp only [List.mem_append] at hf
        rcases hf with (hf | hf) | hf
        · exact Nat.lt_succ_of_lt (ih3 f hf)
        · have hmem : f.geo_frame_idx ∈
              (regular_frames inp m st.1.length).map Frame.geo_frame_idx :=
            List.mem_map_of_mem Frame.geo_frame_idx hf
          rw [regular_frames_geo] at hmem
          rw [List.eq_of_mem_replicate hmem]
          exact Nat.lt_succ_self m
        · have hmem : f.geo_frame_idx ∈
              (hold_frames_at inp m
                (st.1.length + (regular_frames inp m st.1.length).length)).map
                Frame.geo_frame_idx :=
            List.mem_map_of_mem Frame.geo_frame_idx hf
          rw [hold_frames_geo] at hmem
          rw [List.eq_of_mem_replicate hmem]
          exact Nat.lt_succ_self m
      · simp only [List.map_append]
        rw [regular_frames_geo, hold_frames_geo, List.append_assoc, ← List.replicate_add]
        rw [List.pairwise_append]
        refine ⟨ih4, pairwise_le_replicate _ m, ?_⟩
        intro x hx y hy
        have hxm : x < m := by
          rw [List.mem_map] at hx
          obtain ⟨f, hf, rfl⟩ := hx
          exact ih3 f hf
        rw [List.eq_of_mem_replicate hy]
        omega
      · intro j
        simp only [List.map_append]
        rw [List.count_append, List.count_append, ih5 j, regular_frames_geo, hold_frames_geo,
          count_replicate_nat, count_replicate_nat]
        rcases Nat.lt_trichotomy j m with hj | hj | hj
        · rw [if_pos hj, if_neg (by omega), if_neg (by omega), if_pos (by omega)]
          omega
        · subst hj
          rw [if_neg (by omega), if_pos rfl, if_pos rfl, if_pos (by omega)]
          omega
        · rw [if_neg (by omega), if_neg (by omega), if_neg (by omega), if_neg (by omega)]
end CameraPath
open RenderGlobe

theorem nodup_flatMap_keys (bw : Nat → List (Int × (Nat × Nat × ℚ))) :
    ∀ (l : List Nat),
      (∀ ri ∈ l, ((bw ri).map Prod.fst).Nodup) →
      List.Pairwise (fun ri rj => ∀ p ∈ bw ri, ∀ q ∈ bw rj, p.1 ≠ q.1) l →
      ((l.flatMap bw).map Prod.fst).Nodup := by
  intro l
  induction l with
  | nil => intro _ _; simp
  | cons ri l ih =>
      intro hnd hpw
      rw [List.pairwise_cons] at hpw
      obtain ⟨hhead, hpw2⟩ := hpw
      rw [List.flatMap_cons, List.map_append, List.nodup_append]
      refine ⟨hnd ri (by simp), ih (fun r hr => hnd r (by simp [hr])) hpw2, ?_⟩
      intro k hk hk2
      simp only [List.mem_map] at hk hk2
      obtain ⟨p, hp, rfl⟩ := hk
      obtain ⟨q, hq, hqe⟩ := hk2
      rw [List.mem_flatMap] at hq
      obtain ⟨rj, hrj, hq⟩ := hq
      exact hhead rj hrj p hp q hq hqe.symm

theorem scheduleWrites_keys_nodup (seq : List Nat) (hw : Nat) (h : seq ≠ []) :
    ((scheduleWrites seq hw).map Prod.fst).Nodup := by
  have hch := (computeRuns_partition seq h).1
  rw [scheduleWrites]
  refine nodup_flatMap_keys _ _ (fun ri _ => boundaryWrites_keys_nodup _ hw ri) ?_
  have hpw := List.pairwise_lt_range ((computeRuns seq).length - 1)
  refine List.Pairwise.imp_of_mem ?_ hpw
  intro ri rj _ hrj hlt p hp q hq
  have hrj2 : rj + 1 < (computeRuns seq).length := by
    rw [List.mem_range] at hrj
    omega
  exact ne_of_lt (boundary_keys_lt (computeRuns seq) 0 seq.length hw hch ri rj hlt hrj2 p hp q hq)

theorem schedule_keys_bounds (seq : List Nat) (hw : Nat) (h : seq ≠ []) :
    ∀ p ∈ compute_crossfade_schedule seq hw, 0 ≤ p.1 ∧ p.1 < (seq.length : Int) := by
  intro p hp
  rw [schedule_eq_writes seq hw h, scheduleWrites] at hp
  rw [List.mem_flatMap] at hp
  obtain ⟨ri, hri, hp⟩ := hp
  rw [List.mem_range] at hri
  have hch := (computeRuns_partition seq h).1
  obtain ⟨h1, hlo, hhi⟩ := boundaryWrites_key_bounds _ hw ri p hp
  have hA := chain_getD _ 0 seq.length hch ri (by omega)
  have hB := chain_getD _ 0 seq.length hch (ri + 1) (by omega)
  have hS := chain_getD_succ _ 0 seq.length hch ri (by omega)
  have hH := halfAt_le (computeRuns seq) hw ri
  omega

/-- C1: the scheduler partitions the frame sequence into maximal runs of
equal `geo_frame_idx`; at each adjacent run boundary with
`half = min(len(outgoing)/2, len(incoming)/2, half_window) ≥ 1` exactly the
`2*half` frames from (incoming start − half) through
(incoming start + half − 1) receive the assignment
(outgoing geo, incoming geo, (k+1)/(2*half+1)) for window position `k`; a
boundary with `half < 1` contributes no assignment; every blend factor lies
strictly between 0 and 1 and increases across the window; and for two runs
of lengths 10 and 10 with `half_window = 2` exactly the four frames 8–11
are assigned blend factors 0.2, 0.4, 0.6, 0.8 in order. -/
theorem C1_crossfade_window_assignment (g : Nat) (gs : List Nat) (hw : Nat) :
    IsRunPartition (g :: gs) (computeRuns (g :: gs)) ∧
    (∀ j, halfAt (computeRuns (g :: gs)) hw j < 1 →
        boundaryWrites (computeRuns (g :: gs)) hw j = []) ∧
    (∀ j idx, j + 1 < (computeRuns (g :: gs)).length →
        InWindow (computeRuns (g :: gs)) hw j idx →
        mapLookup (compute_crossfade_schedule (g :: gs) hw) idx =
          some (((computeRuns (g :: gs)).getD j default).geo,
            ((computeRuns (g :: gs)).getD (j + 1) default).geo,
            alphaAt (computeRuns (g :: gs)) hw j idx)) ∧
    (∀ idx, (∀ j, ¬ InWindow (computeRuns (g :: gs)) hw j idx) →
        mapLookup (compute_crossfade_schedule (g :: gs) hw) idx = none) ∧
    (∀ j idx, InWindow (computeRuns (g :: gs)) hw j idx →
        0 < alphaAt (computeRuns (g :: gs)) hw j idx ∧
          alphaAt (computeRuns (g :: gs)) hw j idx < 1) ∧
    (∀ j idx idx', InWindow (computeRuns (g :: gs)) hw j idx →
        InWindow (computeRuns (g :: gs)) hw j idx' → idx < idx' →
        alphaAt (computeRuns (g :: gs)) hw j idx < alphaAt (computeRuns (g :: gs)) hw j idx') ∧
    compute_crossfade_schedule [0, 0, 0, 0, 0, 0, 0, 0, 0, 0, 1, 1, 1, 1, 1, 1, 1, 1, 1, 1] 2 =
      [(8, (0, 1, 1/5)), (9, (0, 1, 2/5)), (10, (0, 1, 3/5)), (11, (0, 1, 4/5))] := by
  have hne : (g :: gs) ≠ [] := List.cons_ne_nil g gs
  refine ⟨computeRuns_partition _ hne, ?_, ?_, ?_, ?_, ?_, schedule_concrete_example⟩
  · intro j hj
    rw [boundaryWrites_def, if_pos hj]
  · intro j idx hj hwin
    exact mapLookup_schedule_of_inWindow _ hw hne j idx hj hwin
  · intro idx hno
    exact mapLookup_schedule_of_noWindow _ hw hne idx hno
  · intro j idx hwin
    exact alphaAt_pos_lt_one _ hw j idx hwin
  · intro j idx idx' hwin hwin' hlt
    exact alphaAt_strict_mono _ hw j idx idx' hwin hwin' hlt

theorem C1_crossfade_window_assignment_witness :
    ((0 : Nat) + 1 < (RenderGlobe.computeRuns [0, 0, 1, 1]).length ∧
      1 ≤ halfAt (computeRuns [0, 0, 1, 1]) 1 0 ∧
      (((computeRuns [0, 0, 1, 1]).getD 1 default).start : Int) -
          halfAt (computeRuns [0, 0, 1, 1]) 1 0 ≤ 1 ∧
      (1 : Int) < (((computeRuns [0, 0, 1, 1]).getD 1 default).start : Int) +
          halfAt (computeRuns [0, 0, 1, 1]) 1 0) ∧
    mapLookup (compute_crossfade_schedule [0, 0, 1, 1] 1) 1 =
      some (((computeRuns [0, 0, 1, 1]).getD 0 default).geo,
        ((computeRuns [0, 0, 1, 1]).getD 1 default).geo,
        alphaAt (computeRuns [0, 0, 1, 1]) 1 0 1) :=
  ⟨⟨by decide, by decide, by decide, by decide⟩,
    (C1_crossfade_window_assignment 0 [0, 1, 1] 1).2.2.1 0 1 (by decide)
      ⟨by decide, by decide, by decide⟩⟩

/-- C2: the three copies of the crossfade scheduler in `render_globe.py`,
`render_flat.py` and `test_crossfade.py` are extensionally equal, and the
function is deterministic: equal inputs give equal outputs. -/
theorem C2_crossfade_copies_equal :
    RenderFlat.compute_crossfade_schedule = RenderGlobe.compute_crossfade_schedule ∧
    TestCrossfade.compute_crossfade_schedule = RenderGlobe.compute_crossfade_schedule ∧
    (∀ (a b : List Nat) (hw hw2 : Nat), a = b → hw = hw2 →
      RenderGlobe.compute_crossfade_schedule a hw =
        RenderGlobe.compute_crossfade_schedule b hw2) :=
  ⟨renderFlat_schedule_eq, testCrossfade_schedule_eq, by
    intro a b hw hw2 h1 h2
    rw [h1, h2]⟩

theorem C2_crossfade_copies_equal_witness :
    ([0, 1] : List Nat) = [0, 1] ∧
    RenderFlat.compute_crossfade_schedule [0, 1] 2 =
      RenderGlobe.compute_crossfade_schedule [0, 1] 2 :=
  ⟨rfl, by rw [C2_crossfade_copies_equal.1]⟩

/-- C10: no animation frame ever receives crossfade assignments from two
distinct run boundaries — the Python dict entry written for a frame is
never overwritten (the fold of dict inserts equals the plain concatenation
of all window writes and the written keys are pairwise distinct) — and
every assigned frame index is a valid index in [0, number of frames). -/
theorem C10_crossfade_windows_disjoint (g : Nat) (gs : List Nat) (hw : Nat) :
    compute_crossfade_schedule (g :: gs) hw = scheduleWrites (g :: gs) hw ∧
    ((scheduleWrites (g :: gs) hw).map Prod.fst).Nodup ∧
    (∀ j j', j < j' → j' + 1 < (computeRuns (g :: gs)).length →
      ∀ p ∈ boundaryWrites (computeRuns (g :: gs)) hw j,
      ∀ q ∈ boundaryWrites (computeRuns (g :: gs)) hw j', p.1 ≠ q.1) ∧
    (∀ p ∈ compute_crossfade_schedule (g :: gs) hw,
      0 ≤ p.1 ∧ p.1 < ((g :: gs).length : Int)) := by
  have hne : (g :: gs) ≠ [] := List.cons_ne_nil g gs
  have hch := (computeRuns_partition _ hne).1
  refine ⟨schedule_eq_writes _ hw hne, scheduleWrites_keys_nodup _ hw hne, ?_,
    schedule_keys_bounds _ hw hne⟩
  intro j j' hjj hj' p hp q hq
  exact ne_of_lt (boundary_keys_lt (computeRuns (g :: gs)) 0 (g :: gs).length hw hch
    j j' hjj hj' p hp q hq)

theorem C10_crossfade_windows_disjoint_witness :
    ((0 : Nat) < 1 ∧ 1 + 1 < (computeRuns [0, 0, 1, 1, 2, 2]).length) ∧
    (∀ p ∈ boundaryWrites (computeRuns [0, 0, 1, 1, 2, 2]) 1 0,
      ∀ q ∈ boundaryWrites (computeRuns [0, 0, 1, 1, 2, 2]) 1 1, p.1 ≠ q.1) :=
  ⟨⟨by decide, by decide⟩,
    (C10_crossfade_windows_disjoint 0 [0, 1, 1, 2, 2] 1).2.2.1 0 1 (by decide) (by decide)⟩

/-- C6: the blended camera position is `(1 - weight) * computed +
weight * authored_target`, applied independently to the longitude and
latitude channels; weight 0 everywhere reproduces the raw computed
trajectory exactly and weight 1 everywhere reproduces the interpolated
authored-target trajectory exactly. -/
theorem C6_era_blend_formula (raw_lons raw_lats override_lons override_lats w : Nat → ℚ) :
    (∀ i, CameraPath.blended_lons raw_lons override_lons w i =
        (1 - w i) * raw_lons i + w i * override_lons i) ∧
    (∀ i, CameraPath.blended_lats raw_lats override_lats w i =
        (1 - w i) * raw_lats i + w i * override_lats i) ∧
    ((∀ i, w i = 0) → ∀ i,
        CameraPath.blended_lons raw_lons override_lons w i = raw_lons i ∧
        CameraPath.blended_lats raw_lats override_lats w i = raw_lats i) ∧
    ((∀ i, w i = 1) → ∀ i,
        CameraPath.blended_lons raw_lons override_lons w i = override_lons i ∧
        CameraPath.blended_lats raw_lats override_lats w i = override_lats i) := by
  refine ⟨fun i => by rw [CameraPath.blended_lons]; ring,
          fun i => by rw [CameraPath.blended_lats]; ring, ?_, ?_⟩
  · intro hw i
    constructor
    · rw [CameraPath.blended_lons, hw i]; ring
    · rw [CameraPath.blended_lats, hw i]; ring
  · intro hw i
    constructor
    · rw [CameraPath.blended_lons, hw i]; ring
    · rw [CameraPath.blended_lats, hw i]; ring

theorem C6_era_blend_formula_witness :
    (∀ i : Nat, (fun _ : Nat => (0 : ℚ)) i = 0) ∧
    CameraPath.blended_lons (fun _ => 3) (fun _ => 7) (fun _ => 0) 5 = 3 :=
  ⟨fun _ => rfl,
    ((C6_era_blend_formula (fun _ => 3) (fun _ => 4) (fun _ => 7) (fun _ => 8)
      (fun _ => 0)).2.2.1 (fun _ => rfl) 5).1⟩

/-- C7 counterexample: the interpolation used for the era overrides
(scipy `interp1d` with `fill_value='extrapolate'`) continues the end
segment linearly outside the authored time range.  At time −10 Ma the
interpolated override weight is 23/50 = 0.46 — the linear continuation of
the 0–50 Ma segment — not the nearest-endpoint value 2/5 = 0.4 that
constant extrapolation would give. -/
theorem C7_constant_extrapolation_counterexample :
    CameraPath.weight_interp (-10) = 23/50 ∧ (23/50 : ℚ) ≠ 2/5 := by
  constructor
  · norm_num [CameraPath.weight_interp, CameraPath.era_times, CameraPath.era_weights,
      CameraPath.ERA_OVERRIDES, CameraPath.interp1d_linear, CameraPath.lerp, List.cons_ne_nil]
  · norm_num

/-- C7 (amended): outside the range spanned by the authored era-keyframe
times the interpolated values follow the linear continuation of the
nearest end segment (scipy `extrapolate`), not the constant endpoint
value: below the range every query lands on the first segment line — in
particular the weight at −10 Ma is 0.46, not 0.4 — while above 1000 Ma
the weight happens to stay 0 only because the last authored segment is
flat.  The shipped timestep grid (1000 … 0 Ma) lies entirely inside the
authored range, so extrapolation is never exercised by the pipeline. -/
theorem C7_extrapolation_is_linear :
    (∀ (x0 y0 x1 y1 : ℚ) (rest : List (ℚ × ℚ)) (x : ℚ), x ≤ x1 →
      CameraPath.interp1d_linear ((x0, y0) :: (x1, y1) :: rest) x =
        CameraPath.lerp x0 y0 x1 y1 x) ∧
    CameraPath.weight_interp (-10) = 23/50 ∧
    CameraPath.weight_interp 1100 = 0 ∧
    (∀ t ∈ CameraPath.times, 0 ≤ t ∧ t ≤ 1000) := by
  refine ⟨CameraPath.interp1d_low, ?_, ?_, ?_⟩
  · norm_num [CameraPath.weight_interp, CameraPath.era_times, CameraPath.era_weights,
      CameraPath.ERA_OVERRIDES, CameraPath.interp1d_linear, CameraPath.lerp, List.cons_ne_nil]
  · norm_num [CameraPath.weight_interp, CameraPath.era_times, CameraPath.era_weights,
      CameraPath.ERA_OVERRIDES, CameraPath.interp1d_linear, CameraPath.lerp, List.cons_ne_nil]
  · intro t ht
    simp only [CameraPath.times, List.mem_map, List.mem_range] at ht
    obtain ⟨i, hi, rfl⟩ := ht
    have h1 : (i : ℚ) ≤ 1000 := by
      have := Nat.lt_succ_iff.mp hi
      exact_mod_cast this
    have h2 : (0 : ℚ) ≤ i := Nat.cast_nonneg i
    constructor <;> linarith

theorem C7_extrapolation_is_linear_witness :
    ((-2 : ℚ) ≤ 1) ∧
    CameraPath.interp1d_linear [(0, 0), (1, 1)] (-2) = CameraPath.lerp 0 0 1 1 (-2) :=
  ⟨by norm_num, C7_extrapolation_is_linear.1 0 0 1 1 [] (-2) (by norm_num)⟩

/-- C8 counterexample: with an empty polygon history at the very first
timestep the pipeline does not fail — the branch at lines 100–108 appends
the default record `(0.0, 0.0, 0.0)` and the loop continues. -/
theorem C8_first_step_default_counterexample :
    CameraPath.emptyStepAppend [] [] [] = ([0], [0], [0]) := by
  rw [CameraPath.emptyStepAppend, if_neg (by simp)]
  rfl

/-- C8 (amended): a first timestep with no polygons appends the default
record `(0.0, 0.0, 0.0)` and the run continues (no fatal error is raised);
any later timestep with no polygons inherits the previous record — the
last centroid and area values are repeated, and the dispersal entry copies
the previous timestep's entry. -/
theorem C8_forward_fill_behavior :
    CameraPath.emptyStepAppend [] [] [] = ([0], [0], [0]) ∧
    (∀ (lons lats areas : List ℚ), lons ≠ [] →
      CameraPath.emptyStepAppend lons lats areas =
        (lons ++ [lons.getLastD 0], lats ++ [lats.getLastD 0], areas ++ [areas.getLastD 0])) ∧
    (∀ (disp : List ℚ) (i : Nat), i < disp.length →
      (CameraPath.dispersalFill disp i).getD i 0 = disp.getD (i - 1) 0) := by
  refine ⟨by rw [CameraPath.emptyStepAppend, if_neg (by simp)]; rfl, ?_, ?_⟩
  · intro lons lats areas h
    rw [CameraPath.emptyStepAppend, if_pos h]
  · intro disp i hi
    rw [CameraPath.dispersalFill, List.getD_eq_getElem?_getD,
      List.getElem?_set_self (by simpa using hi)]
    rfl

theorem regularCount_pos (inp : CameraPath.ExpandInput) (i : Nat) :
    1 ≤ CameraPath.regularCount inp i := by
  rw [CameraPath.regularCount, CameraPath.n_frames_of]
  have h := le_max_left (1 : ℤ)
    (CameraPath.pythonRound (CameraPath.frame_duration inp.min_speed inp.max_speed
      inp.smooth_dispersal i))
  omega

/-- C9: for every expander input (any timestep count, any dispersal and
hold configuration) the emitted animation-frame sequence has `anim_frame`
indices exactly 0, 1, 2, … with no gaps; `geo_frame_idx` is monotonically
non-decreasing across the sequence; and every timestep index below
`total_steps` appears as `geo_frame_idx` of at least one frame. -/
theorem C9_frame_sequence_invariants (inp : CameraPath.ExpandInput) :
    ((CameraPath.output_frames inp).map CameraPath.Frame.anim_frame =
      List.range (CameraPath.output_frames inp).length) ∧
    (((CameraPath.output_frames inp).map CameraPath.Frame.geo_frame_idx).Pairwise (· ≤ ·)) ∧
    (∀ j < inp.total_steps, ∃ f ∈ CameraPath.output_frames inp, f.geo_frame_idx = j) := by
  obtain ⟨h1, h2, h3, h4, h5⟩ := CameraPath.expand_invariant inp inp.total_steps
  refine ⟨h2, h4, ?_⟩
  intro j hj
  have hc := h5 j
  rw [if_pos hj] at hc
  have hpos : 0 < ((CameraPath.output_frames inp).map CameraPath.Frame.geo_frame_idx).count j := by
    rw [CameraPath.output_frames, hc]
    have := regularCount_pos inp j
    omega
  have hmem := List.count_pos_iff.mp hpos
  rw [List.mem_map] at hmem
  obtain ⟨f, hf, hfe⟩ := hmem
  exact ⟨f, hf, hfe⟩

theorem C9_frame_sequence_invariants_witness :
    (0 : Nat) < 1 ∧
    ∃ f ∈ CameraPath.output_frames
      { total_steps := 1, min_speed := 1, max_speed := 3, times := fun _ => 0,
        smooth_lons := fun _ => 0, smooth_lats := fun _ => 0, smooth_dispersal := fun _ => 0,
        era_label := fun _ => "x", hold_extra := fun _ => 0 }, f.geo_frame_idx = 0 :=
  ⟨Nat.zero_lt_one,
    (C9_frame_sequence_invariants
      { total_steps := 1, min_speed := 1, max_speed := 3, times := fun _ => 0,
        smooth_lons := fun _ => 0, smooth_lats := fun _ => 0, smooth_dispersal := fun _ => 0,
        era_label := fun _ => "x", hold_extra := fun _ => 0 }).2.2 0 Nat.zero_lt_one⟩

/-- C5: for every timestep `i` the expander emits
`max(1, round(min_speed + (max_speed - min_speed) * (1 - dispersal_i)))`
regular animation frames — the full sequence contains exactly that many
frames for `i` plus the configured hold extras — and with `min_speed = 1`,
`max_speed = 3`: dispersal 1 yields exactly 1 regular frame and
dispersal 0 yields exactly `round(max_speed) = 3`. -/
theorem C5_frame_count (inp : CameraPath.ExpandInput) (i : Nat) (hi : i < inp.total_steps) :
    (((CameraPath.output_frames inp).map CameraPath.Frame.geo_frame_idx).count i =
      CameraPath.n_frames_of (CameraPath.frame_duration inp.min_speed inp.max_speed
        inp.smooth_dispersal i) + inp.hold_extra i) ∧
    (∀ a, (CameraPath.regular_frames inp i a).length =
      CameraPath.n_frames_of (CameraPath.frame_duration inp.min_speed inp.max_speed
        inp.smooth_dispersal i)) ∧
    (∀ d : Nat → ℚ, d i = 1 →
      CameraPath.n_frames_of
        (CameraPath.frame_duration CameraPath.MIN_SPEED CameraPath.MAX_SPEED d i) = 1) ∧
    (∀ d : Nat → ℚ, d i = 0 →
      CameraPath.n_frames_of
        (CameraPath.frame_duration CameraPath.MIN_SPEED CameraPath.MAX_SPEED d i) = 3) := by
  refine ⟨?_, fun a => CameraPath.regular_frames_length inp i a, ?_, ?_⟩
  · have h5 := (CameraPath.expand_invariant inp inp.total_steps).2.2.2.2 i
    rw [if_pos hi] at h5
    rw [CameraPath.output_frames, h5, CameraPath.regularCount]
  · intro d hd
    rw [CameraPath.frame_duration, hd, CameraPath.MIN_SPEED, CameraPath.MAX_SPEED]
    norm_num [CameraPath.n_frames_of, CameraPath.pythonRound]
  · intro d hd
    rw [CameraPath.frame_duration, hd, CameraPath.MIN_SPEED, CameraPath.MAX_SPEED]
    norm_num [CameraPath.n_frames_of, CameraPath.pythonRound]
    rfl

theorem C5_frame_count_witness :
    (0 : Nat) < 1 ∧
    ((CameraPath.output_frames
      { total_steps := 1, min_speed := 1, max_speed := 3, times := fun _ => 0,
        smooth_lons := fun _ => 0, smooth_lats := fun _ => 0,
        smooth_dispersal := fun _ => 1, era_label := fun _ => "x",
        hold_extra := fun _ => 0 }).map CameraPath.Frame.geo_frame_idx).count 0 =
      CameraPath.n_frames_of (CameraPath.frame_duration 1 3 (fun _ => 1) 0) + 0 :=
  ⟨Nat.zero_lt_one,
    (C5_frame_count
      { total_steps := 1, min_speed := 1, max_speed := 3, times := fun _ => 0,
        smooth_lons := fun _ => 0, smooth_lats := fun _ => 0,
        smooth_dispersal := fun _ => 1, era_label := fun _ => "x",
        hold_extra := fun _ => 0 } 0 Nat.zero_lt_one).1⟩

theorem C8_forward_fill_behavior_witness :
    (([1] : List ℚ) ≠ [] ∧ (1 : Nat) < [(5 : ℚ), 7].length) ∧
    CameraPath.emptyStepAppend [1] [2] [3] = ([1, 1], [2, 2], [3, 3]) ∧
    (CameraPath.dispersalFill [(5 : ℚ), 7] 1).getD 1 0 = 5 :=
  ⟨⟨by simp, by norm_num⟩,
    C8_forward_fill_behavior.2.1 [1] [2] [3] (by simp),
    C8_forward_fill_behavior.2.2 [5, 7] 1 (by norm_num)⟩

/-- C3: for every non-empty polygon list with positive total area, the
dominant-cluster selection works as specified: at every threshold the
clusters returned are exactly the connected components of the
below-threshold proximity relation, the candidate is a component of
maximal summed area, the loop stops at the first threshold (ascending
through `[12, 18, 25]`) whose candidate reaches the configured minimum
coverage of 1/2, falling back to the last threshold's candidate, and the
reported threshold is the one that produced the returned component. -/
theorem C3_dominant_cluster_selection (areas : List ℚ) (d : Nat → Nat → ℚ)
    (hne : areas ≠ []) (htot : 0 < CameraPath.total_area areas) :
    (∀ t : ℚ,
      (∀ c ∈ CameraPath.clustersAt areas d t, c ≠ [] ∧ ∀ x ∈ c, x < areas.length) ∧
      (∀ x, x < areas.length → ∃ c ∈ CameraPath.clustersAt areas d t, x ∈ c) ∧
      (∀ c ∈ CameraPath.clustersAt areas d t, ∀ x ∈ c, ∀ y,
          (y ∈ c ↔ y < areas.length ∧ CameraPath.SameCluster areas.length d t x y)) ∧
      CameraPath.dominantAt areas d t ∈ CameraPath.clustersAt areas d t ∧
      (∀ c ∈ CameraPath.clustersAt areas d t,
          CameraPath.clusterArea areas c ≤
            CameraPath.clusterArea areas (CameraPath.dominantAt areas d t))) ∧
    (CameraPath.cluster_dominant areas d).1 =
      CameraPath.dominantAt areas d (CameraPath.cluster_dominant areas d).2 ∧
    (CameraPath.cluster_dominant areas d).2 ∈ CameraPath.CLUSTER_THRESHOLDS ∧
    (match CameraPath.CLUSTER_THRESHOLDS.find?
        (fun t => CameraPath.MIN_CLUSTER_COVERAGE ≤ CameraPath.coverageAt areas d t) with
     | some tstar => CameraPath.cluster_dominant areas d =
         (CameraPath.dominantAt areas d tstar, tstar)
     | none => CameraPath.cluster_dominant areas d =
         (CameraPath.dominantAt areas d (CameraPath.CLUSTER_THRESHOLDS.getLastD 0),
          CameraPath.CLUSTER_THRESHOLDS.getLastD 0)) := by
  have hn : 0 < areas.length := List.length_pos.2 hne
  obtain ⟨hsel1, hsel2, hsel3⟩ := CameraPath.cluster_dominant_spec areas d
  refine ⟨?_, hsel1, hsel2, hsel3⟩
  intro t
  obtain ⟨hprops, hcover, hcomp⟩ := CameraPath.clustersAt_spec areas d t
  have hcs_ne : CameraPath.clustersAt areas d t ≠ [] := by
    obtain ⟨c, hc, _⟩ := hcover 0 hn
    exact List.ne_nil_of_mem hc
  obtain ⟨hdm, hdmax⟩ :=
    CameraPath.maxByArea_spec areas (CameraPath.clustersAt areas d t) hcs_ne
  exact ⟨fun c hc => ⟨(hprops c hc).1, (hprops c hc).2.2⟩, hcover, hcomp, hdm, hdmax⟩

theorem C3_dominant_cluster_selection_witness :
    (CameraPath.cluster_dominant [(1 : ℚ)] (fun _ _ => 0)).1 =
      CameraPath.dominantAt [(1 : ℚ)] (fun _ _ => 0)
        (CameraPath.cluster_dominant [(1 : ℚ)] (fun _ _ => 0)).2 :=
  (C3_dominant_cluster_selection [(1 : ℚ)] (fun _ _ => 0)
    (List.cons_ne_nil 1 []) (by simp [CameraPath.total_area])).2.1

/-- C4: for every non-empty polygon list with (pointwise) positive areas,
the dominant-cluster coverage fraction is monotonically non-decreasing in
the threshold: escalation never reduces achievable coverage. -/
theorem C4_coverage_monotone (areas : List ℚ) (d : Nat → Nat → ℚ)
    (hne : areas ≠ []) (hpos : ∀ a ∈ areas, 0 < a) (t1 t2 : ℚ) (ht : t1 ≤ t2) :
    CameraPath.coverageAt areas d t1 ≤ CameraPath.coverageAt areas d t2 := by
  have hn : 0 < areas.length := List.length_pos.2 hne
  have htot : 0 < CameraPath.total_area areas := List.sum_pos areas hpos hne
  have hpos' : ∀ a ∈ areas, 0 ≤ a := fun a ha => le_of_lt (hpos a ha)
  obtain ⟨hprops1, hcover1, hcomp1⟩ := CameraPath.clustersAt_spec areas d t1
  obtain ⟨hprops2, hcover2, hcomp2⟩ := CameraPath.clustersAt_spec areas d t2
  have hcs1 : CameraPath.clustersAt areas d t1 ≠ [] := by
    obtain ⟨c, hc, _⟩ := hcover1 0 hn
    exact List.ne_nil_of_mem hc
  have hcs2 : CameraPath.clustersAt areas d t2 ≠ [] := by
    obtain ⟨c, hc, _⟩ := hcover2 0 hn
    exact List.ne_nil_of_mem hc
  obtain ⟨hdm1, hdmax1⟩ :=
    CameraPath.maxByArea_spec areas (CameraPath.clustersAt areas d t1) hcs1
  obtain ⟨hdm2, hdmax2⟩ :=
    CameraPath.maxByArea_spec areas (CameraPath.clustersAt areas d t2) hcs2
  have hC1mem : CameraPath.dominantAt areas d t1 ∈ CameraPath.clustersAt areas d t1 := hdm1
  obtain ⟨hC1ne, hC1nodup, hC1bound⟩ := hprops1 _ hC1mem
  obtain ⟨x0, hx0⟩ := List.exists_mem_of_ne_nil _ hC1ne
  have hx0n : x0 < areas.length := hC1bound x0 hx0
  obtain ⟨c2, hc2mem, hx0c2⟩ := hcover2 x0 hx0n
  obtain ⟨_, hc2nodup, _⟩ := hprops2 c2 hc2mem
  have hsub : ∀ y ∈ CameraPath.dominantAt areas d t1, y ∈ c2 := by
    intro y hy
    have hy1 := (hcomp1 _ hC1mem x0 hx0 y).1 hy
    rw [hcomp2 c2 hc2mem x0 hx0c2 y]
    exact ⟨hy1.1, CameraPath.sameCluster_mono areas.length d t1 t2 ht x0 y hy1.2⟩
  have harea1 : CameraPath.clusterArea areas (CameraPath.dominantAt areas d t1) ≤
      CameraPath.clusterArea areas c2 :=
    CameraPath.clusterArea_le_of_subset areas hpos' _ c2 hC1nodup hc2nodup hsub
  have harea2 : CameraPath.clusterArea areas c2 ≤
      CameraPath.clusterArea areas (CameraPath.dominantAt areas d t2) := hdmax2 c2 hc2mem
  rw [CameraPath.coverageAt, CameraPath.coverageAt, if_pos htot, if_pos htot]
  exact (div_le_div_iff_of_pos_right htot).mpr (le_trans harea1 harea2)

theorem C4_coverage_monotone_witness :
    CameraPath.coverageAt [(1 : ℚ)] (fun _ _ => 0) 12 ≤
      CameraPath.coverageAt [(1 : ℚ)] (fun _ _ => 0) 12 :=
  C4_coverage_monotone [(1 : ℚ)] (fun _ _ => 0) (List.cons_ne_nil 1 [])
    (by simp) 12 12 (le_refl 12)

end Globe
